import Mathlib

/-!
Verification of the city-generation tool's core algorithms.

This file gives a shallow embedding, in Lean 4, of the two core subsystems of
the repository and proves / refutes the specified properties about them:

* the terrain engine of `src/js/topography.js` (deterministic hash noise,
  elevation-grid construction, flow-direction computation, flow-path tracing,
  and the marching-squares coastline extraction), and
* the Wave-Function-Collapse city solver of `src/unnamed/part_004`
  (grid initialisation, cell collapse, constraint propagation).

Machine integers are modelled as `Nat`/`Int` with explicit `% 2^32` where the
JavaScript source relies on 32-bit wrap-around (`>>> 0`, `^`, `>>`), and the
one place where IEEE-754 double rounding is observable (the 64-bit product
`t * 1274126177` inside `hash`) is modelled by an explicit rounding function
`flRound` that rounds an integer to 53 significant bits, exactly as the
double multiplication of two exact integers does.  Elevations, weights and
compatibility scores are modelled as `ℚ`; within the ranges exercised here
(`< 2^53`, denominators that are powers of ten or two) JavaScript number
arithmetic on them is exact, so `ℚ` is faithful.
-/

namespace CityGen

/-! ## Deterministic noise source (`src/js/topography.js`, lines 21-47) -/

/-- JavaScript `>>> 0` applied to an exact integer value: reduce mod `2^32`. -/
def toUint32 (n : ℤ) : ℕ := (n % 4294967296).toNat

/-- Reinterpret a 32-bit pattern as a signed 32-bit integer (JS `ToInt32`). -/
def toInt32 (n : ℕ) : ℤ := if n < 2147483648 then (n : ℤ) else (n : ℤ) - 4294967296

/-- JavaScript `s >> 13` on a 32-bit pattern: sign-propagating shift, i.e.
floor-division of the signed value by `2^13`, viewed again as a bit pattern. -/
def jsShr13 (s : ℕ) : ℕ := toUint32 ((toInt32 s).fdiv 8192)

/-- Rounding of a nonnegative integer to the nearest IEEE-754 double
(53 significant bits, ties to even).  Integers below `2^53` are exact. -/
def flRound (n : ℕ) : ℕ :=
  if n < 9007199254740992 then n
  else if 2 ^ (n.log2 - 52 - 1) < n % 2 ^ (n.log2 - 52)
      ∨ (n % 2 ^ (n.log2 - 52) = 2 ^ (n.log2 - 52 - 1) ∧ (n / 2 ^ (n.log2 - 52)) % 2 = 1)
    then (n / 2 ^ (n.log2 - 52) + 1) * 2 ^ (n.log2 - 52)
    else (n / 2 ^ (n.log2 - 52)) * 2 ^ (n.log2 - 52)

/-- The hash pipeline of `hash(x, y)` after the seed mix `s` has been formed:
`t = ((s ^ (s >> 13)) * 1274126177) >>> 0; return (t & 0xfffffff) / 0xfffffff`.
The 64-bit product goes through double rounding (`flRound`) before `>>> 0`. -/
def hashFromS (s : ℕ) : ℚ :=
  let t1 : ℕ := s ^^^ jsShr13 s
  let t : ℕ := flRound (t1 * 1274126177) % 4294967296
  ((t &&& 0xfffffff : ℕ) : ℚ) / 0xfffffff

/-- The 2-D hash of `TopographyGenerator.hash` (topography.js lines 21-26).
The seed mix `s = (x*374761393 + y*668265263 + seed*374761397) >>> 0` is exact
JavaScript arithmetic whenever the linear combination stays below `2^53` in
absolute value; the value of `s` is irrelevant to the range property proved
below, which holds for every 32-bit `s`. -/
def hash (x y seed : ℤ) : ℚ :=
  hashFromS (toUint32 (x * 374761393 + y * 668265263 + seed * 374761397))

/-- Linear interpolation helper from `noise` (topography.js line 37). -/
def lerp (a b t : ℚ) : ℚ := a + (b - a) * t

/-- Bilinear value noise of `TopographyGenerator.noise` (topography.js 28-47). -/
def noise (freq : ℚ) (seed : ℤ) (x y : ℚ) : ℚ :=
  let fx := x * freq
  let fy := y * freq
  let x0 : ℤ := ⌊fx⌋
  let y0 : ℤ := ⌊fy⌋
  let dx := fx - x0
  let dy := fy - y0
  let n00 := hash x0 y0 seed
  let n10 := hash (x0 + 1) y0 seed
  let n01 := hash x0 (y0 + 1) seed
  let n11 := hash (x0 + 1) (y0 + 1) seed
  lerp (lerp n00 n10 dx) (lerp n01 n11 dx) dy

/-! ## Elevation field construction (topography.js, lines 53-65) -/

structure ElevationGrid where
  rows : ℕ
  cols : ℕ
  data : List (List ℚ)
deriving Repr, DecidableEq

/-- The grid built by `generateElevationGrid`:
`cols = Math.ceil(width / cellSize) + 1`, `rows = Math.ceil(height / cellSize) + 1`,
`data[j][i] = noise(i * cellSize, j * cellSize)`.  `Array.from {length: L}`
clamps a negative length to zero, hence `Int.toNat`.  The constructor of
`TopographyGenerator` performs no validation of `width`/`height`/`cellSize`;
there is no rejection path to model. -/
def generateElevationGrid (width height cellSize freq : ℚ) (seed : ℤ) : ElevationGrid :=
  let cols := (⌈width / cellSize⌉ + 1).toNat
  let rows := (⌈height / cellSize⌉ + 1).toNat
  { rows := rows
    cols := cols
    data := (List.range rows).map fun j : ℕ =>
      (List.range cols).map fun i : ℕ =>
        noise freq seed (((i : ℕ) : ℚ) * cellSize) (((j : ℕ) : ℚ) * cellSize) }

/-! ## Flow directions (topography.js, lines 72-99)

The per-cell scan of `computeFlowDirections` visits the 8 neighbour offsets
in the source's loop order `dj = -1..1, di = -1..1` (skipping `(0,0)`), keeps
a running strict minimum `minH` initialised to the cell's own elevation, and
records the coordinates of the last strict improvement. -/

/-- Neighbour offsets `(dj, di)` in the order the source's nested loop visits
them: NW, N, NE, W, E, SW, S, SE. -/
def codeScanOrder : List (ℤ × ℤ) :=
  [(-1, -1), (-1, 0), (-1, 1), (0, -1), (0, 1), (1, -1), (1, 0), (1, 1)]

/-- Modelled from the spec: the neighbour scan order the specification
describes, "clockwise from north": N, NE, E, SE, S, SW, W, NW. -/
def clockwiseScanOrder : List (ℤ × ℤ) :=
  [(-1, 0), (-1, 1), (0, 1), (1, 1), (1, 0), (1, -1), (0, -1), (-1, -1)]

/-- One pass of the neighbour scan: thread the running minimum and the
currently selected neighbour through a list of offsets.  Mirrors the loop
body `if (h < minH) { minH = h; next = [nj, ni]; }` with the source's bounds
check `nj >= 0 && nj < rows && ni >= 0 && ni < cols`. -/
def flowScan (rows cols : ℕ) (data : ℕ → ℕ → ℚ) (j i : ℕ) :
    List (ℤ × ℤ) → ℚ → Option (ℕ × ℕ) → ℚ × Option (ℕ × ℕ)
  | [], m, o => (m, o)
  | (dj, di) :: rest, m, o =>
    let nj : ℤ := (j : ℤ) + dj
    let ni : ℤ := (i : ℤ) + di
    if 0 ≤ nj ∧ nj < (rows : ℤ) ∧ 0 ≤ ni ∧ ni < (cols : ℤ) then
      let h := data nj.toNat ni.toNat
      if h < m then flowScan rows cols data j i rest h (some (nj.toNat, ni.toNat))
      else flowScan rows cols data j i rest m o
    else flowScan rows cols data j i rest m o

/-- The flow direction `flow[j][i]` computed by `computeFlowDirections`:
the recorded neighbour after scanning the 8 offsets in source order, or
`none` for a local minimum. -/
def flowNext (rows cols : ℕ) (data : ℕ → ℕ → ℚ) (j i : ℕ) : Option (ℕ × ℕ) :=
  (flowScan rows cols data j i codeScanOrder (data j i) none).2

/-- The in-bounds neighbours of `(j, i)` reached by a list of offsets, each
paired with its elevation, in scan order. -/
def neighborCands (rows cols : ℕ) (data : ℕ → ℕ → ℚ) (j i : ℕ)
    (order : List (ℤ × ℤ)) : List ((ℕ × ℕ) × ℚ) :=
  order.filterMap fun di =>
    let nj : ℤ := (j : ℤ) + di.1
    let ni : ℤ := (i : ℤ) + di.2
    if 0 ≤ nj ∧ nj < (rows : ℤ) ∧ 0 ≤ ni ∧ ni < (cols : ℤ) then
      some ((nj.toNat, ni.toNat), data nj.toNat ni.toNat)
    else none

/-- Minimum of the elevations of a candidate list, starting from the cell's
own elevation. -/
def foldMin (l : List ((ℕ × ℕ) × ℚ)) (m : ℚ) : ℚ :=
  l.foldl (fun acc c => min acc c.2) m

/-- Modelled from the spec: "selects the one with the strictly lowest
elevation; ties are resolved by first-found order in a fixed neighbor-scan
sequence".  Returns the first neighbour (in the given scan order) whose
elevation equals the minimum over all in-bounds neighbours, provided that
minimum is strictly below the cell's own elevation, and `none` otherwise. -/
def chooseFirstLowest (rows cols : ℕ) (data : ℕ → ℕ → ℚ) (j i : ℕ)
    (order : List (ℤ × ℤ)) : Option (ℕ × ℕ) :=
  let cands := neighborCands rows cols data j i order
  let m := foldMin cands (data j i)
  if m < data j i then (cands.find? fun c => decide (c.2 = m)).map Prod.fst else none

/-- The neighbour scan, restated over the precomputed candidate list: this
is `flowScan` after the bounds test has been discharged. -/
def scanCands : List ((ℕ × ℕ) × ℚ) → ℚ → Option (ℕ × ℕ) → ℚ × Option (ℕ × ℕ)
  | [], m, o => (m, o)
  | c :: rest, m, o =>
    if c.2 < m then scanCands rest c.2 (some c.1) else scanCands rest m o

/-! ## Flow-path tracing (topography.js, lines 204-213)

`getFlowPath` follows the flow links, pushing the world coordinates
`{x: i * cellSize, y: j * cellSize}` of every visited cell.  The source loop
has no explicit bound; the embedding supplies fuel, and the termination
theorem shows `rows * cols` fuel is always enough (the result is unchanged
by any additional fuel). -/

def getFlowPathAux (flow : ℕ → ℕ → Option (ℕ × ℕ)) (cellSize : ℚ) :
    ℕ → ℕ × ℕ → List (ℚ × ℚ)
  | 0, _ => []
  | fuel + 1, (j, i) =>
    ((i : ℚ) * cellSize, (j : ℚ) * cellSize) ::
      match flow j i with
      | none => []
      | some nxt => getFlowPathAux flow cellSize fuel nxt

/-- `getFlowPath(row, col)` over the flow grid of `computeFlowDirections`. -/
def getFlowPath (rows cols : ℕ) (data : ℕ → ℕ → ℚ) (cellSize : ℚ) (j i : ℕ) :
    List (ℚ × ℚ) :=
  getFlowPathAux (flowNext rows cols data) cellSize (rows * cols) (j, i)

/-! ## Marching squares (topography.js, lines 289-360)

Points are exact rationals; the source keys points by `toFixed(3)` strings,
which is injective on the half-cell lattice points produced here, so exact
equality of rationals is the faithful model of the keying. -/

/-- One emitted boundary segment: an (ordered) pair of points. -/
abbrev Seg := (ℚ × ℚ) × (ℚ × ℚ)

/-- The configuration index `idx = (a<<3)|(b<<2)|(c<<1)|d` of a 2×2 block. -/
def squareIndex (a b c d : Bool) : ℕ :=
  (if a then 8 else 0) + (if b then 4 else 0) + (if c then 2 else 0) + (if d then 1 else 0)

/-- Segments emitted for one 2×2 block, from the `switch (idx)` table with
`idx = (a<<3)|(b<<2)|(c<<1)|d` and the fixed mid-edge points `top`, `right`,
`bottom`, `left` of the square at grid position `(j, i)`. -/
def squareSegments (cell : ℚ) (j i : ℕ) (a b c d : Bool) : List Seg :=
  let idx : ℕ := squareIndex a b c d
  let top : ℚ × ℚ := ((i : ℚ) * cell + cell / 2, (j : ℚ) * cell)
  let right : ℚ × ℚ := ((i : ℚ) * cell + cell, (j : ℚ) * cell + cell / 2)
  let bottom : ℚ × ℚ := ((i : ℚ) * cell + cell / 2, (j : ℚ) * cell + cell)
  let left : ℚ × ℚ := ((i : ℚ) * cell, (j : ℚ) * cell + cell / 2)
  match idx with
  | 1 => [(left, bottom)]
  | 2 => [(bottom, right)]
  | 3 => [(left, right)]
  | 4 => [(top, right)]
  | 5 => [(top, left), (bottom, right)]
  | 6 => [(top, bottom)]
  | 7 => [(top, left)]
  | 8 => [(top, left)]
  | 9 => [(top, bottom)]
  | 10 => [(top, right), (left, bottom)]
  | 11 => [(top, right)]
  | 12 => [(left, right)]
  | 13 => [(bottom, right)]
  | 14 => [(left, bottom)]
  | _ => []

/-- Read `mask[j][i]`, `false` outside (accesses stay in range in the pass). -/
def maskAt (mask : List (List Bool)) (j i : ℕ) : Bool := (mask.getD j []).getD i false

/-- The full segment soup of the marching-squares pass: squares are visited
in the source's row-major order `j = 0..rows-2`, `i = 0..cols-2`, with the
corners `a = mask[j][i]`, `b = mask[j][i+1]`, `c = mask[j+1][i+1]`,
`d = mask[j+1][i]`. -/
def msSegments (cell : ℚ) (mask : List (List Bool)) : List Seg :=
  let rows := mask.length
  let cols := (mask.headD []).length
  ((List.range (rows - 1)).map fun j =>
    ((List.range (cols - 1)).map fun i =>
      squareSegments cell j i (maskAt mask j i) (maskAt mask j (i + 1))
        (maskAt mask (j + 1) (i + 1)) (maskAt mask (j + 1) i)).flatten).flatten

/-- Chain-following of the source's inner `while (true)` loop: repeatedly
take the first not-yet-used segment touching `current` (the segment map
buckets preserve global emission order, so first-in-bucket equals
first-in-`segments`), append the far endpoint, and stop when the chain
closes on `start` or dead-ends.  Fuel replaces the unbounded loop; each
step consumes one unused segment, so `segments.length` fuel suffices. -/
def linkChain (segments : List Seg) :
    ℕ → List Seg → List (ℚ × ℚ) → (ℚ × ℚ) → (ℚ × ℚ) → List (ℚ × ℚ) × List Seg
  | 0, used, loop, _, _ => (loop, used)
  | fuel + 1, used, loop, current, start =>
    match segments.find? (fun s => decide (s ∉ used ∧ (s.1 = current ∨ s.2 = current))) with
    | none => (loop, used)
    | some s =>
      let nxt := if s.1 = current then s.2 else s.1
      let loop2 := loop ++ [nxt]
      let used2 := s :: used
      if nxt = start then (loop2, used2)
      else linkChain segments fuel used2 loop2 nxt start

/-- One iteration of the outer `for (const seg of segments)` loop: skip used
segments, otherwise build a chain starting from `seg` and retain the
resulting point list exactly when `loop.length > 2`. -/
def linkStep (segments : List Seg) (acc : List (List (ℚ × ℚ)) × List Seg) (seg : Seg) :
    List (List (ℚ × ℚ)) × List Seg :=
  if seg ∈ acc.2 then acc
  else
    let r := linkChain segments (segments.length + 1) (seg :: acc.2) [seg.1, seg.2] seg.2 seg.1
    if 2 < r.1.length then (acc.1 ++ [r.1], r.2) else (acc.1, r.2)

/-- The outer loop of the segment-linking phase. -/
def linkLoops (segments : List Seg) : List (List (ℚ × ℚ)) :=
  (segments.foldl (linkStep segments) ([], [])).1

/-- `marchingSquaresOnMask(mask)`: emit segments per 2×2 block, then link
them into point lists. -/
def marchingSquaresOnMask (cell : ℚ) (mask : List (List Bool)) : List (List (ℚ × ℚ)) :=
  linkLoops (msSegments cell mask)

/-! ## The Wave-Function-Collapse solver (`src/unnamed/part_004`)

The tileset is the fallback tileset of `createFallbackTileset` (the external
`data/wfc-tileset.json` is not part of the repository, so the solver runs on
this catalog).  `Math.seededRandom` (main.js lines 633-636) always returns a
value in `[0, 1)`; the random draws consumed by the solver are modelled as
explicit `ℚ` parameters, universally quantified, with `0 ≤ r < 1` where a
theorem needs it. -/

inductive TileType
  | residential | commercial | industrial | park | road | empty
deriving DecidableEq, Fintype, Repr

structure Tile where
  id : ℕ
  type : TileType
  weight : ℚ
deriving DecidableEq, Repr

/-- The `tiles` array of the fallback tileset (part_004, lines 34-42).  The
`name` field only distinguishes `road_h`/`road_v` for the emitter and is not
consulted by the solver, so it is omitted. -/
def tiles : List Tile :=
  [⟨0, .residential, 3/10⟩, ⟨1, .commercial, 1/5⟩, ⟨2, .industrial, 1/10⟩,
   ⟨3, .park, 3/20⟩, ⟨4, .road, 1/10⟩, ⟨5, .road, 1/10⟩, ⟨6, .empty, 1/20⟩]

/-- `this.tileset.tiles.find(t => t.id === tileId)`. -/
def findTile (tid : ℕ) : Option Tile := tiles.find? fun t => t.id == tid

/-- The `adjacencyRules.matrix` of the fallback tileset (part_004, 43-52),
as a total function on the closed category set. -/
def matrix : TileType → TileType → ℚ
  | .residential, .residential => 1
  | .residential, .commercial => 4/5
  | .residential, .industrial => 1/5
  | .residential, .park => 1
  | .residential, .road => 1
  | .residential, .empty => 7/10
  | .commercial, .residential => 4/5
  | .commercial, .commercial => 1
  | .commercial, .industrial => 3/10
  | .commercial, .park => 7/10
  | .commercial, .road => 1
  | .commercial, .empty => 1/2
  | .industrial, .residential => 1/5
  | .industrial, .commercial => 3/10
  | .industrial, .industrial => 1
  | .industrial, .park => 3/10
  | .industrial, .road => 1
  | .industrial, .empty => 9/10
  | .park, .residential => 1
  | .park, .commercial => 7/10
  | .park, .industrial => 3/10
  | .park, .park => 1
  | .park, .road => 4/5
  | .park, .empty => 4/5
  | .road, .residential => 1
  | .road, .commercial => 1
  | .road, .industrial => 1
  | .road, .park => 4/5
  | .road, .road => 1
  | .road, .empty => 9/10
  | .empty, .residential => 7/10
  | .empty, .commercial => 1/2
  | .empty, .industrial => 9/10
  | .empty, .park => 4/5
  | .empty, .road => 9/10
  | .empty, .empty => 1

/-- The adjacency score of two resolved tile ids, i.e. the value of
`matrix[ownCategory][neighborCategory]` (0 when an id has no tile). -/
def scoreOfIds (own neighbor : ℕ) : ℚ :=
  match findTile own, findTile neighbor with
  | some a, some b => matrix a.type b.type
  | _, _ => 0

/-- One cell of the WFC grid (part_004, lines 93-97): `tileId` is absent
(`undefined`) until the cell is collapsed. -/
structure WFCCell where
  collapsed : Bool
  possibilities : List ℕ
  entropy : ℕ
  tileId : Option ℕ
deriving DecidableEq, Repr

/-- The WFC grid, as a total map from coordinates `(x, y)`; the JavaScript
array `grid[y][x]` is only ever read in bounds, where the two agree. -/
abbrev WFCGrid := ℕ × ℕ → WFCCell

def updateGrid (g : WFCGrid) (p : ℕ × ℕ) (c : WFCCell) : WFCGrid :=
  fun q => if q = p then c else g q

def allTileIds : List ℕ := tiles.map Tile.id

/-- `initializeWFCGrid` (part_004, lines 86-102): every cell uncollapsed
with all tile ids possible and `entropy = allTileIds.length`. -/
def initializeWFCGrid (_gridWidth _gridHeight : ℕ) : WFCGrid :=
  fun _ =>
    { collapsed := false, possibilities := allTileIds,
      entropy := allTileIds.length, tileId := none }

inductive Direction
  | east | west | south | north
deriving DecidableEq, Repr

/-- `filterPossibilities(possibilities, neighborTileId, direction)`
(part_004, lines 236-253).  An absent (`undefined`) neighbour tile id, or an
unknown tile id, returns the list unchanged; otherwise a candidate survives
iff it has a tile and `matrix[currentType][neighborType] > 0.3` (a score of
0 is already rejected by `> 0.3`, matching the `score && score > 0.3`
truthiness test).  The `direction` argument is accepted and ignored, exactly
as in the source body. -/
def filterPossibilities (possibilities : List ℕ) (neighborTileId : Option ℕ)
    (_d : Direction) : List ℕ :=
  match neighborTileId with
  | none => possibilities
  | some nid =>
    match findTile nid with
    | none => possibilities
    | some neighborTile =>
      possibilities.filter fun tid =>
        match findTile tid with
        | none => false
        | some tile => decide (3/10 < matrix tile.type neighborTile.type)

/-- The iteration count of `for (let i = 0; i < weight * 100; i++)`. -/
def weightedCopies (tid : ℕ) : ℕ :=
  (⌈(match findTile tid with | some t => t.weight | none => 1/10) * 100⌉).toNat

/-- The `weightedPossibilities` array built in `collapseCell`. -/
def weightedPossibilities (possibilities : List ℕ) : List ℕ :=
  possibilities.flatMap fun tid => List.replicate (weightedCopies tid) tid

/-- `collapseCell(grid, x, y)` (part_004, lines 172-193), with the consumed
`Math.seededRandom()` draw made explicit as `r`.  When
`Math.floor(r * wp.length)` is out of range (impossible for `0 ≤ r < 1`
since `wp` is nonempty whenever the possibility list is), JavaScript would
store the single element `undefined`; that unreachable branch is modelled by
`tileId := none` with an empty possibility list. -/
def collapseCell (g : WFCGrid) (x y : ℕ) (r : ℚ) : WFCGrid :=
  if (g (x, y)).collapsed = true ∨ (g (x, y)).possibilities = [] then g
  else
    match (weightedPossibilities (g (x, y)).possibilities).get?
        (⌊r * ((weightedPossibilities (g (x, y)).possibilities).length : ℚ)⌋).toNat with
    | some chosen =>
      updateGrid g (x, y)
        { collapsed := true, possibilities := [chosen], entropy := 0, tileId := some chosen }
    | none =>
      updateGrid g (x, y)
        { collapsed := true, possibilities := [], entropy := 0, tileId := none }

/-- The four neighbour records `{x±1, y±1, direction}` of
`propagateConstraints`, in source order: east, west, south, north. -/
def neighborList (x y : ℕ) : List ((ℤ × ℤ) × Direction) :=
  [(((x : ℤ) + 1, (y : ℤ)), .east), (((x : ℤ) - 1, (y : ℤ)), .west),
   (((x : ℤ), (y : ℤ) + 1), .south), (((x : ℤ), (y : ℤ) - 1), .north)]

/-- The `neighbors.forEach` body of `propagateConstraints` (part_004, lines
213-232): for each in-bounds, uncollapsed neighbour, filter its possibility
list against `grid[y][x].tileId` of the dequeued cell `src`; on a strict
shrink, store the filtered list together with the recomputed entropy and
append the neighbour to the queue. -/
def visitNeighbors (src : ℕ × ℕ) (gridWidth gridHeight : ℕ) :
    List ((ℤ × ℤ) × Direction) → WFCGrid → List (ℕ × ℕ) → WFCGrid × List (ℕ × ℕ)
  | [], g, q => (g, q)
  | ((nx, ny), d) :: rest, g, q =>
    if 0 ≤ nx ∧ nx < (gridWidth : ℤ) ∧ 0 ≤ ny ∧ ny < (gridHeight : ℤ) then
      if (g (nx.toNat, ny.toNat)).collapsed then
        visitNeighbors src gridWidth gridHeight rest g q
      else if (filterPossibilities (g (nx.toNat, ny.toNat)).possibilities
            ((g src).tileId) d).length ≠ (g (nx.toNat, ny.toNat)).possibilities.length then
        visitNeighbors src gridWidth gridHeight rest
          (updateGrid g (nx.toNat, ny.toNat)
            { g (nx.toNat, ny.toNat) with
              possibilities := filterPossibilities (g (nx.toNat, ny.toNat)).possibilities
                ((g src).tileId) d
              entropy := (filterPossibilities (g (nx.toNat, ny.toNat)).possibilities
                ((g src).tileId) d).length })
          (q ++ [(nx.toNat, ny.toNat)])
      else visitNeighbors src gridWidth gridHeight rest g q
    else visitNeighbors src gridWidth gridHeight rest g q

/-- The `while (queue.length > 0)` loop of `propagateConstraints` (part_004,
lines 195-234), with the string-keyed `visited` set modelled as a coordinate
list.  Fuel replaces the unbounded loop; every queue entry is either already
visited (and dropped) or newly visited, and each visit enqueues at most 4
cells, which bounds the queue traffic, so the fuel supplied by
`propagateConstraints` below can never run out. -/
def propagateLoop (gridWidth gridHeight : ℕ) :
    ℕ → WFCGrid → List (ℕ × ℕ) → List (ℕ × ℕ) → WFCGrid
  | 0, g, _, _ => g
  | _ + 1, g, [], _ => g
  | fuel + 1, g, p :: rest, visited =>
    if p ∈ visited then propagateLoop gridWidth gridHeight fuel g rest visited
    else
      propagateLoop gridWidth gridHeight fuel
        (visitNeighbors p gridWidth gridHeight (neighborList p.1 p.2) g rest).1
        (visitNeighbors p gridWidth gridHeight (neighborList p.1 p.2) g rest).2
        (p :: visited)

/-- `propagateConstraints(grid, startX, startY, gridWidth, gridHeight)`. -/
def propagateConstraints (g : WFCGrid) (startX startY gridWidth gridHeight : ℕ) : WFCGrid :=
  propagateLoop gridWidth gridHeight
    ((gridWidth * gridHeight + 1) * (4 * gridWidth * gridHeight + 2))
    g [(startX, startY)] []

/-- One solver step as performed by `collapseWaveFunction` (part_004, lines
116-128): collapse a chosen cell, then propagate from it. -/
def collapseAndPropagate (g : WFCGrid) (x y : ℕ) (r : ℚ) (W H : ℕ) : WFCGrid :=
  propagateConstraints (collapseCell g x y r) x y W H

/-- Grids reachable by a solver run: the initial grid, followed by any
sequence of collapse-and-propagate steps at in-bounds cells with draws in
`[0, 1)`.  Every actual `collapseWaveFunction` run (whatever cells its
entropy heuristic and random tie-breaks select) produces a grid reachable in
this sense. -/
inductive SolverReach (W H : ℕ) : WFCGrid → Prop
  | init : SolverReach W H (initializeWFCGrid W H)
  | step (g : WFCGrid) (x y : ℕ) (r : ℚ) :
      SolverReach W H g → x < W → y < H → 0 ≤ r → r < 1 →
      SolverReach W H (collapseAndPropagate g x y r W H)

/-- Orthogonal adjacency of two grid coordinates. -/
def AdjacentCells (p q : ℕ × ℕ) : Prop :=
  (p.1 = q.1 ∧ (p.2 = q.2 + 1 ∨ q.2 = p.2 + 1)) ∨
  (p.2 = q.2 ∧ (p.1 = q.1 + 1 ∨ q.1 = p.1 + 1))

instance (p q : ℕ × ℕ) : Decidable (AdjacentCells p q) := by
  unfold AdjacentCells; infer_instance

/-! ## C5: range and determinism of `hash` -/

-- The heart of the range bound: after the (rounded) multiplication and the
-- truncation to 32 bits, the low 28 bits can never be all ones.  For an
-- exact product (`t1 * 1274126177 < 2^53`) this is a modular-inverse
-- computation; a rounded product is divisible by a positive power of two,
-- hence even, while `0xfffffff` is odd.
theorem flRound_masked_ne (t1 : ℕ) :
    (flRound (t1 * 1274126177) % 4294967296) &&& 0xfffffff ≠ 0xfffffff := by
  have hmask : (0xfffffff : ℕ) = 2 ^ 28 - 1 := by norm_num
  rw [hmask, Nat.and_pow_two_sub_one_eq_mod]
  have h2832 : (2 : ℕ) ^ 28 ∣ 2 ^ 32 := pow_dvd_pow 2 (by norm_num)
  have h32 : (4294967296 : ℕ) = 2 ^ 32 := by norm_num
  rw [h32, Nat.mod_mod_of_dvd _ h2832]
  set n := t1 * 1274126177 with hn
  by_cases hlt : n < 9007199254740992
  · have hfl : flRound n = n := by rw [flRound, if_pos hlt]
    rw [hfl]
    intro h
    have ht1 : t1 ≤ 7069314 := by
      by_contra hgt
      push_neg at hgt
      have hge : 7069315 * 1274126177 ≤ t1 * 1274126177 := Nat.mul_le_mul_right _ hgt
      have : (9007199254740992 : ℕ) ≤ n := le_trans (by norm_num) hge
      omega
    have h1 : Nat.ModEq (2 ^ 28) (t1 * 1274126177) (2 ^ 28 - 1) :=
      h.trans (Nat.mod_eq_of_lt (by norm_num)).symm
    have h2 := h1.mul_right 64308385
    rw [mul_assoc] at h2
    have h4 : Nat.ModEq (2 ^ 28) (1274126177 * 64308385) 1 := by
      show 1274126177 * 64308385 % 2 ^ 28 = 1 % 2 ^ 28
      norm_num
    have h5 := (h4.mul_left t1).symm.trans h2
    rw [mul_one] at h5
    have h7 : t1 % 2 ^ 28 = 204127071 := by
      rw [h5]; norm_num
    have h28 : (2 : ℕ) ^ 28 = 268435456 := by norm_num
    rw [Nat.mod_eq_of_lt (by omega : t1 < 2 ^ 28)] at h7
    omega
  · push_neg at hlt
    intro h
    have h53 : (2 : ℕ) ^ 53 = 9007199254740992 := by norm_num
    have hn0 : n ≠ 0 := by omega
    have hlog : 53 ≤ n.log2 := (Nat.le_log2 hn0).mpr (by omega)
    have hdvd : 2 ∣ flRound n := by
      rw [flRound, if_neg (by omega)]
      have h2e : (2 : ℕ) ∣ 2 ^ (n.log2 - 52) := dvd_pow_self 2 (by omega)
      split_ifs <;> exact Dvd.dvd.mul_left h2e _
    have hdvd2 : 2 ∣ flRound n % 2 ^ 28 :=
      (Nat.dvd_mod_iff (by norm_num : (2 : ℕ) ∣ 2 ^ 28)).mpr hdvd
    rw [h] at hdvd2
    norm_num at hdvd2

-- Range of the post-seed-mix pipeline, for an arbitrary 32-bit (indeed any)
-- intermediate state.
theorem hashFromS_range (s : ℕ) : 0 ≤ hashFromS s ∧ hashFromS s < 1 := by
  unfold hashFromS
  constructor
  · exact div_nonneg (Nat.cast_nonneg _) (by norm_num)
  · rw [div_lt_one (by norm_num)]
    have h1 : (flRound ((s ^^^ jsShr13 s) * 1274126177) % 4294967296) &&& 0xfffffff
        ≤ 0xfffffff := Nat.and_le_right
    have h2 := flRound_masked_ne (s ^^^ jsShr13 s)
    have h3 : (flRound ((s ^^^ jsShr13 s) * 1274126177) % 4294967296) &&& 0xfffffff
        < 0xfffffff := lt_of_le_of_ne h1 h2
    exact_mod_cast h3

/-- C5: for every integer input triple `(x, y, seed)`, `hash` returns a value
that is at least 0 and strictly below 1 (under faithful JavaScript semantics
the masked 28-bit value can never be the full mask `0xfffffff`, so the result
never reaches 1), and identical inputs always yield identical output. -/
theorem hash_in_unit_interval_and_deterministic (x y seed : ℤ) :
    0 ≤ hash x y seed ∧ hash x y seed < 1 ∧ hash x y seed = hash x y seed :=
  ⟨(hashFromS_range _).1, (hashFromS_range _).2, rfl⟩

/-! ## C6: elevation-grid construction never rejects -/

/-- C6 counterexample: the constructor and `generateElevationGrid` perform no
validation at all.  For the non-positive width `-10` (with `height = 20`,
`cellSize = 10`, default frequency and seed) no configuration error occurs:
the code simply produces a degenerate grid with `cols = 0` (the negative
array length `ceil(-10/10)+1 = 0` is clamped by `Array.from`), contradicting
the claim that non-positive inputs are rejected before any grid allocation. -/
theorem elevation_grid_accepts_nonpositive_width :
    generateElevationGrid (-10) 20 10 (1/20) 12345 =
      { rows := 3, cols := 0, data := [[], [], []] } := by
  have hc1 : ⌈(-10 : ℚ) / 10⌉ = -1 := by
    rw [show ((-10 : ℚ) / 10) = ((-1 : ℤ) : ℚ) by norm_num, Int.ceil_intCast]
  have hc2 : ⌈(20 : ℚ) / 10⌉ = 2 := by
    rw [show ((20 : ℚ) / 10) = ((2 : ℤ) : ℚ) by norm_num, Int.ceil_intCast]
  simp only [generateElevationGrid, hc1, hc2, ElevationGrid.mk.injEq]
  norm_num [List.range_succ]
  decide

/-- C6 amended: for all positive `width`, `height`, `cellSize` the
construction succeeds with exactly `ceil(width/cellSize) + 1` columns and
`ceil(height/cellSize) + 1` rows, and the data array has those dimensions;
but non-positive inputs are not rejected (no validation exists; degenerate
grids are returned instead, as the counterexample shows). -/
theorem elevation_grid_dims (w h cs f : ℚ) (sd : ℤ)
    (hw : 0 < w) (hh : 0 < h) (hc : 0 < cs) :
    ((generateElevationGrid w h cs f sd).cols : ℤ) = ⌈w / cs⌉ + 1 ∧
    ((generateElevationGrid w h cs f sd).rows : ℤ) = ⌈h / cs⌉ + 1 ∧
    (generateElevationGrid w h cs f sd).data.length =
      (generateElevationGrid w h cs f sd).rows ∧
    ∀ row ∈ (generateElevationGrid w h cs f sd).data,
      row.length = (generateElevationGrid w h cs f sd).cols := by
  have hcw : (0 : ℤ) < ⌈w / cs⌉ := Int.ceil_pos.mpr (div_pos hw hc)
  have hch : (0 : ℤ) < ⌈h / cs⌉ := Int.ceil_pos.mpr (div_pos hh hc)
  refine ⟨?_, ?_, ?_, ?_⟩
  · show ((((⌈w / cs⌉ + 1).toNat : ℕ)) : ℤ) = ⌈w / cs⌉ + 1
    rw [Int.toNat_of_nonneg (by omega)]
  · show ((((⌈h / cs⌉ + 1).toNat : ℕ)) : ℤ) = ⌈h / cs⌉ + 1
    rw [Int.toNat_of_nonneg (by omega)]
  · simp only [generateElevationGrid, List.length_map, List.length_range]
  · intro row hrow
    simp only [generateElevationGrid, List.mem_map] at hrow
    obtain ⟨jj, _, hj2⟩ := hrow
    simp only [generateElevationGrid, ← hj2, List.length_map, List.length_range]

/-- C6 witness: at `width = height = 20`, `cellSize = 10`, the grid has
`⌈20/10⌉ + 1 = 3` columns. -/
theorem elevation_grid_dims_witness :
    ((generateElevationGrid 20 20 10 (1/20) 12345).cols : ℤ) = 3 := by
  have h := (elevation_grid_dims 20 20 10 (1/20) 12345
    (by norm_num) (by norm_num) (by norm_num)).1
  rw [h, show ((20 : ℚ) / 10) = 2 by norm_num]
  norm_num

/-! ## C8: marching-squares segment counts per configuration -/

/-- C8: in the marching-squares pass, with configuration index
`idx = (a<<3)|(b<<2)|(c<<1)|d`, configurations 0 and 15 emit no segment, the
two checkerboard saddle configurations 5 (`b`, `d` water) and 10 (`a`, `c`
water) emit exactly two segments, and every other configuration from 1 to 14
emits exactly one. -/
theorem marching_squares_segment_counts (cell : ℚ) (j i : ℕ) (a b c d : Bool) :
    (squareSegments cell j i a b c d).length =
      (if squareIndex a b c d = 0 ∨ squareIndex a b c d = 15 then 0
       else if squareIndex a b c d = 5 ∨ squareIndex a b c d = 10 then 2 else 1) ∧
    (squareIndex a b c d = 5 ↔ a = false ∧ b = true ∧ c = false ∧ d = true) ∧
    (squareIndex a b c d = 10 ↔ a = true ∧ b = false ∧ c = true ∧ d = false) := by
  cases a <;> cases b <;> cases c <;> cases d <;>
    exact ⟨rfl, by decide, by decide⟩

/-! ## C9: what the linking phase guarantees about returned loops -/

/-- C9 counterexample: on the mask whose entire top row is water,
marching squares emits the two collinear segments of configuration 12 twice;
the chain dead-ends at the mask border, and the resulting 3-point chain is
retained even though its first point `(0, 5)` differs from its last point
`(20, 5)` — the returned polygon is not a closed loop. -/
theorem marching_squares_open_chain_counterexample :
    marchingSquaresOnMask 10 [[true, true, true], [false, false, false]] =
      [[(0, 5), (10, 5), (20, 5)]] ∧
    ([(0, 5), (10, 5), (20, 5)] : List (ℚ × ℚ)).head? ≠
      ([(0, 5), (10, 5), (20, 5)] : List (ℚ × ℚ)).getLast? := by
  constructor
  · with_unfolding_all decide
  · with_unfolding_all decide

-- Every point list retained by the outer linking loop passed the
-- `loop.length > 2` check.
theorem linkLoops_foldl_min_points (segs : List Seg) (l : List Seg) :
    ∀ acc : List (List (ℚ × ℚ)) × List Seg,
      (∀ loop ∈ acc.1, 3 ≤ loop.length) →
      ∀ loop ∈ (l.foldl (linkStep segs) acc).1, 3 ≤ loop.length := by
  induction l with
  | nil => intro acc hacc; simpa using hacc
  | cons s rest ih =>
    intro acc hacc
    rw [List.foldl_cons]
    apply ih
    unfold linkStep
    by_cases h1 : s ∈ acc.2
    · rw [if_pos h1]; exact hacc
    · rw [if_neg h1]
      by_cases h2 : 2 <
          (linkChain segs (segs.length + 1) (s :: acc.2) [s.1, s.2] s.2 s.1).1.length
      · rw [if_pos h2]
        intro loop hmem
        rcases List.mem_append.mp hmem with hold | hnew
        · exact hacc loop hold
        · rw [List.mem_singleton.mp hnew]; omega
      · rw [if_neg h2]; exact hacc

/-- C9 amended: every polygon returned by `marchingSquaresOnMask` contains at
least 3 points (the retention check is exactly `loop.length > 2`); however,
as the counterexample shows, the first and last point need not coincide —
chains that dead-end (water touching the mask border) are returned open, and
closure holds only when the chain returns to its starting point. -/
theorem marching_squares_loops_min_points (cell : ℚ) (mask : List (List Bool)) :
    ∀ loop ∈ marchingSquaresOnMask cell mask, 3 ≤ loop.length := by
  intro loop h
  exact linkLoops_foldl_min_points (msSegments cell mask) (msSegments cell mask)
    ([], []) (by simp) loop h

/-- C9 witness: the 3-point chain returned on the all-water-top-row mask. -/
theorem marching_squares_loops_min_points_witness :
    3 ≤ ([(0, 5), (10, 5), (20, 5)] : List (ℚ × ℚ)).length :=
  marching_squares_loops_min_points 10 [[true, true, true], [false, false, false]]
    [(0, 5), (10, 5), (20, 5)] (by with_unfolding_all decide)

/-! ## C7: which neighbour `computeFlowDirections` selects -/

-- The raw scan factors through the in-bounds candidate list.
theorem flowScan_eq_scanCands (rows cols : ℕ) (data : ℕ → ℕ → ℚ) (j i : ℕ) :
    ∀ (order : List (ℤ × ℤ)) (m : ℚ) (o : Option (ℕ × ℕ)),
      flowScan rows cols data j i order m o =
        scanCands (neighborCands rows cols data j i order) m o := by
  intro order
  induction order with
  | nil => intro m o; rfl
  | cons di rest ih =>
    intro m o
    rw [flowScan, neighborCands]
    by_cases hb : 0 ≤ (j : ℤ) + di.1 ∧ (j : ℤ) + di.1 < (rows : ℤ) ∧
        0 ≤ (i : ℤ) + di.2 ∧ (i : ℤ) + di.2 < (cols : ℤ)
    · rw [if_pos hb, List.filterMap_cons]
      simp only [if_pos hb]
      rw [scanCands]
      by_cases hlt : data ((j : ℤ) + di.1).toNat ((i : ℤ) + di.2).toNat < m
      · rw [if_pos hlt, if_pos hlt, ih, neighborCands]
      · rw [if_neg hlt, if_neg hlt, ih, neighborCands]
    · rw [if_neg hb, List.filterMap_cons]
      simp only [if_neg hb]
      rw [ih, neighborCands]

-- The running minimum of the scan is the fold of `min` over the candidates.
theorem scanCands_fst (l : List ((ℕ × ℕ) × ℚ)) :
    ∀ (m : ℚ) (o : Option (ℕ × ℕ)), (scanCands l m o).1 = foldMin l m := by
  induction l with
  | nil => intro m o; rfl
  | cons c rest ih =>
    intro m o
    rw [scanCands, foldMin, List.foldl_cons]
    by_cases hlt : c.2 < m
    · rw [if_pos hlt, ih, min_eq_right hlt.le]; rfl
    · rw [if_neg hlt, ih, min_eq_left (not_lt.mp hlt)]; rfl

theorem foldMin_le_init (l : List ((ℕ × ℕ) × ℚ)) :
    ∀ m : ℚ, foldMin l m ≤ m := by
  induction l with
  | nil => intro m; exact le_refl m
  | cons c rest ih =>
    intro m
    rw [foldMin, List.foldl_cons]
    exact le_trans (ih (min m c.2)) (min_le_left _ _)

-- The selected neighbour is the first candidate attaining the overall
-- minimum, provided that minimum strictly improves on the start value.
theorem scanCands_snd (l : List ((ℕ × ℕ) × ℚ)) :
    ∀ (m : ℚ) (o : Option (ℕ × ℕ)),
      (scanCands l m o).2 =
        if foldMin l m < m then
          (l.find? fun c => decide (c.2 = foldMin l m)).map Prod.fst
        else o := by
  induction l with
  | nil =>
    intro m o
    rw [scanCands, foldMin, List.foldl_nil, if_neg (lt_irrefl m)]
  | cons c rest ih =>
    intro m o
    have hfold : foldMin (c :: rest) m = foldMin rest (min m c.2) := by
      rw [foldMin, List.foldl_cons, foldMin]
    by_cases hlt : c.2 < m
    · have hmeq : min m c.2 = c.2 := min_eq_right hlt.le
      have hF : foldMin (c :: rest) m = foldMin rest c.2 := by rw [hfold, hmeq]
      have hFle : foldMin rest c.2 ≤ c.2 := foldMin_le_init rest c.2
      rw [scanCands, if_pos hlt, ih, hF, if_pos (lt_of_le_of_lt hFle hlt)]
      by_cases hF2 : foldMin rest c.2 < c.2
      · have hne : ¬(decide (c.2 = foldMin rest c.2) = true) := by
          simp only [decide_eq_true_eq]
          intro hh
          rw [← hh] at hF2
          exact lt_irrefl _ hF2
        rw [if_pos hF2,
          @List.find?_cons_of_neg _ (fun x => decide (x.2 = foldMin rest c.2)) c rest hne]
      · have hFeq : foldMin rest c.2 = c.2 := le_antisymm hFle (not_lt.mp hF2)
        have hpos : (fun x : (ℕ × ℕ) × ℚ => decide (x.2 = foldMin rest c.2)) c = true := by
          simp only [decide_eq_true_eq]
          exact hFeq.symm
        rw [if_neg hF2,
          @List.find?_cons_of_pos _ (fun x => decide (x.2 = foldMin rest c.2)) c rest hpos]
        rfl
    · have hmeq : min m c.2 = m := min_eq_left (not_lt.mp hlt)
      have hF : foldMin (c :: rest) m = foldMin rest m := by rw [hfold, hmeq]
      rw [scanCands, if_neg hlt, ih, hF]
      by_cases hlt2 : foldMin rest m < m
      · have hne : ¬(decide (c.2 = foldMin rest m) = true) := by
          simp only [decide_eq_true_eq]
          intro hh
          rw [hh] at hlt
          exact hlt hlt2
        rw [if_pos hlt2, if_pos hlt2,
          @List.find?_cons_of_neg _ (fun x => decide (x.2 = foldMin rest m)) c rest hne]
      · rw [if_neg hlt2, if_neg hlt2]

/-- C7 amended: for every elevation grid and every cell,
`computeFlowDirections` selects the in-bounds neighbour with the strictly
lowest elevation (and `none` when no neighbour is strictly lower), and when
several neighbours tie for the lowest elevation, the one chosen is the first
encountered in the source's row-major scan sequence NW, N, NE, W, E, SW, S,
SE — not the clockwise-from-north sequence the claim states. -/
theorem flowNext_eq_first_lowest (rows cols : ℕ) (data : ℕ → ℕ → ℚ) (j i : ℕ) :
    flowNext rows cols data j i =
      chooseFirstLowest rows cols data j i codeScanOrder := by
  rw [flowNext, flowScan_eq_scanCands, scanCands_snd, chooseFirstLowest]

/-- A concrete elevation field with a tie: the cell `(1, 1)` has the two
equal strictly-lowest neighbours N = `(0, 1)` and NW = `(0, 0)`. -/
def tieElevation : ℕ → ℕ → ℚ := fun j i =>
  if j = 0 then 0 else if i = 0 then 5 else 1

/-- C7 counterexample: on `tieElevation`, the first strictly-lowest
neighbour of `(1, 1)` in clockwise-from-north order is N = `(0, 1)`, but
the code selects NW = `(0, 0)`, because its scan runs row-major and the
strict running minimum keeps the first minimum found. -/
theorem flow_tie_break_counterexample :
    flowNext 2 2 tieElevation 1 1 = some (0, 0) ∧
    chooseFirstLowest 2 2 tieElevation 1 1 clockwiseScanOrder = some (0, 1) ∧
    some ((0 : ℕ), (0 : ℕ)) ≠ some ((0 : ℕ), (1 : ℕ)) := by
  refine ⟨by decide, by decide, by decide⟩

/-! ## C3: termination and length bound of flow-path tracing -/

/-- The in-bounds cells whose elevation is strictly below that of `c`. -/
def lowerCells (rows cols : ℕ) (data : ℕ → ℕ → ℚ) (c : ℕ × ℕ) : Finset (ℕ × ℕ) :=
  (Finset.range rows ×ˢ Finset.range cols).filter fun d => data d.1 d.2 < data c.1 c.2

/-- The termination measure: how many in-bounds cells lie strictly below `c`. -/
def elevRank (rows cols : ℕ) (data : ℕ → ℕ → ℚ) (c : ℕ × ℕ) : ℕ :=
  (lowerCells rows cols data c).card

theorem neighborCands_mem (rows cols : ℕ) (data : ℕ → ℕ → ℚ) (j i : ℕ)
    (order : List (ℤ × ℤ)) (x : (ℕ × ℕ) × ℚ)
    (hx : x ∈ neighborCands rows cols data j i order) :
    x.1.1 < rows ∧ x.1.2 < cols ∧ x.2 = data x.1.1 x.1.2 := by
  rw [neighborCands, List.mem_filterMap] at hx
  obtain ⟨di, _, hdi⟩ := hx
  by_cases hb : 0 ≤ (j : ℤ) + di.1 ∧ (j : ℤ) + di.1 < (rows : ℤ) ∧
      0 ≤ (i : ℤ) + di.2 ∧ (i : ℤ) + di.2 < (cols : ℤ)
  · simp only [if_pos hb, Option.some.injEq] at hdi
    obtain ⟨h1, h2, h3, h4⟩ := hb
    refine ⟨?_, ?_, ?_⟩ <;> rw [← hdi] <;> simp only [] <;> omega
  · rw [if_neg hb] at hdi
    exact absurd hdi (by simp)

-- The flow link, when present, points to an in-bounds neighbour of strictly
-- lower elevation (topography.js replaces `minH` only on `h < minH`).
theorem flowNext_strict_lower (rows cols : ℕ) (data : ℕ → ℕ → ℚ) (j i : ℕ)
    (nb : ℕ × ℕ) (h : flowNext rows cols data j i = some nb) :
    nb.1 < rows ∧ nb.2 < cols ∧ data nb.1 nb.2 < data j i := by
  rw [flowNext, flowScan_eq_scanCands, scanCands_snd] at h
  by_cases hc : foldMin (neighborCands rows cols data j i codeScanOrder) (data j i)
      < data j i
  · rw [if_pos hc] at h
    rw [Option.map_eq_some'] at h
    obtain ⟨c, hfind, hc1⟩ := h
    have hmem := List.mem_of_find?_eq_some hfind
    have hP := List.find?_some hfind
    rw [decide_eq_true_eq] at hP
    obtain ⟨hb1, hb2, hb3⟩ := neighborCands_mem rows cols data j i codeScanOrder c hmem
    rw [← hc1]
    exact ⟨hb1, hb2, by rw [← hb3, hP]; exact hc⟩
  · rw [if_neg hc] at h
    exact absurd h (by simp)

theorem elevRank_lt_of_flowNext (rows cols : ℕ) (data : ℕ → ℕ → ℚ) (j i : ℕ)
    (nb : ℕ × ℕ) (h : flowNext rows cols data j i = some nb) :
    elevRank rows cols data nb < elevRank rows cols data (j, i) := by
  obtain ⟨h1, h2, h3⟩ := flowNext_strict_lower rows cols data j i nb h
  apply Finset.card_lt_card
  rw [Finset.ssubset_iff_of_subset]
  · refine ⟨nb, ?_, ?_⟩
    · simp only [lowerCells, Finset.mem_filter, Finset.mem_product, Finset.mem_range]
      exact ⟨⟨h1, h2⟩, h3⟩
    · simp only [lowerCells, Finset.mem_filter, Finset.mem_product, Finset.mem_range]
      rintro ⟨-, habs⟩
      exact lt_irrefl _ habs
  · intro d hd
    simp only [lowerCells, Finset.mem_filter, Finset.mem_product, Finset.mem_range] at hd ⊢
    exact ⟨hd.1, lt_trans hd.2 h3⟩

theorem elevRank_lt_total (rows cols : ℕ) (data : ℕ → ℕ → ℚ) (j i : ℕ)
    (hj : j < rows) (hi : i < cols) :
    elevRank rows cols data (j, i) < rows * cols := by
  have hcard : (Finset.range rows ×ˢ Finset.range cols).card = rows * cols := by
    rw [Finset.card_product, Finset.card_range, Finset.card_range]
  rw [elevRank, ← hcard]
  apply Finset.card_lt_card
  rw [lowerCells, Finset.ssubset_iff_of_subset (Finset.filter_subset _ _)]
  refine ⟨(j, i), ?_, ?_⟩
  · simp only [Finset.mem_product, Finset.mem_range]
    exact ⟨hj, hi⟩
  · simp only [lowerCells, Finset.mem_filter, Finset.mem_product, Finset.mem_range]
    rintro ⟨-, habs⟩
    exact lt_irrefl _ habs

-- With fuel exceeding the rank, the traced path has at most `rank + 1`
-- points and is independent of the exact fuel: the unbounded source loop
-- terminates.
theorem getFlowPathAux_spec (rows cols : ℕ) (data : ℕ → ℕ → ℚ) (cs : ℚ) :
    ∀ (fuel : ℕ) (c : ℕ × ℕ), c.1 < rows → c.2 < cols →
      elevRank rows cols data c < fuel →
      (getFlowPathAux (flowNext rows cols data) cs fuel c).length ≤
          elevRank rows cols data c + 1 ∧
      ∀ fuel2, elevRank rows cols data c < fuel2 →
        getFlowPathAux (flowNext rows cols data) cs fuel c =
          getFlowPathAux (flowNext rows cols data) cs fuel2 c := by
  intro fuel
  induction fuel with
  | zero => intro c _ _ h3; omega
  | succ n ih =>
    rintro ⟨j, i⟩ h1 h2 h3
    constructor
    · rw [getFlowPathAux]
      cases hfn : flowNext rows cols data j i with
      | none => simp
      | some nb =>
        have hs := flowNext_strict_lower rows cols data j i nb hfn
        have hrk := elevRank_lt_of_flowNext rows cols data j i nb hfn
        have hlen := (ih nb hs.1 hs.2.1 (by omega)).1
        simp only [List.length_cons]
        omega
    · intro fuel2 hf2
      cases fuel2 with
      | zero => omega
      | succ n2 =>
        rw [getFlowPathAux, getFlowPathAux]
        cases hfn : flowNext rows cols data j i with
        | none => rfl
        | some nb =>
          have hs := flowNext_strict_lower rows cols data j i nb hfn
          have hrk := elevRank_lt_of_flowNext rows cols data j i nb hfn
          exact congrArg (fun l => (((i : ℚ) * cs, (j : ℚ) * cs)) :: l)
            ((ih nb hs.1 hs.2.1 (by omega)).2 n2 (by omega))

/-- C3: for every elevation field, the flow path traced from any in-bounds
cell has at most `rows * cols` points, and the trace terminates: the fuelled
embedding of the source's unbounded `while (current)` loop is already stable
at `rows * cols` fuel (any extra fuel gives the same path), because each flow
link strictly decreases elevation, so no cell can repeat. -/
theorem flow_path_terminates (rows cols : ℕ) (data : ℕ → ℕ → ℚ) (cs : ℚ)
    (j i : ℕ) (hj : j < rows) (hi : i < cols) :
    (getFlowPath rows cols data cs j i).length ≤ rows * cols ∧
    ∀ extra : ℕ,
      getFlowPathAux (flowNext rows cols data) cs (rows * cols + extra) (j, i) =
        getFlowPath rows cols data cs j i := by
  have hrk := elevRank_lt_total rows cols data j i hj hi
  have h := getFlowPathAux_spec rows cols data cs (rows * cols) (j, i) hj hi hrk
  refine ⟨le_trans h.1 (by omega), ?_⟩
  intro extra
  exact ((h.2 (rows * cols + extra)) (by omega)).symm

/-- A flat one-cell elevation field for the witness. -/
def constElevation : ℕ → ℕ → ℚ := fun _ _ => 0

/-- C3 witness: on a 1×1 grid the path from `(0, 0)` has at most one point,
and six units of extra fuel change nothing. -/
theorem flow_path_terminates_witness :
    (getFlowPath 1 1 constElevation 1 0 0).length ≤ 1 ∧
    getFlowPathAux (flowNext 1 1 constElevation) 1 (1 * 1 + 5) (0, 0) =
      getFlowPath 1 1 constElevation 1 0 0 :=
  ⟨by
    have := (flow_path_terminates 1 1 constElevation 1 0 0
      (by decide) (by decide)).1
    simpa using this,
   (flow_path_terminates 1 1 constElevation 1 0 0 (by decide) (by decide)).2 5⟩

/-! ## WFC solver: invariants and helper lemmas -/

/-- The grid coordinates named by a neighbour record. -/
def entryCell (e : (ℤ × ℤ) × Direction) : ℕ × ℕ := (e.1.1.toNat, e.1.2.toNat)

/-- The bounds test applied by `propagateConstraints` to a neighbour record. -/
def entryInBounds (W H : ℕ) (e : (ℤ × ℤ) × Direction) : Prop :=
  0 ≤ e.1.1 ∧ e.1.1 < (W : ℤ) ∧ 0 ≤ e.1.2 ∧ e.1.2 < (H : ℤ)

instance (W H : ℕ) (e : (ℤ × ℤ) × Direction) : Decidable (entryInBounds W H e) := by
  unfold entryInBounds; infer_instance

/-- The per-cell entropy invariant of the specification (C2): an uncollapsed
cell's entropy is the size of its possibility set; a collapsed cell has
entropy 0 and a single possibility. -/
def EntropyCellInv (c : WFCCell) : Prop :=
  (c.collapsed = false → c.entropy = c.possibilities.length) ∧
  (c.collapsed = true → c.entropy = 0 ∧ c.possibilities.length = 1)

def EntropyInv (g : WFCGrid) : Prop := ∀ p : ℕ × ℕ, EntropyCellInv (g p)

/-- Uncollapsed cells carry no `tileId` (it is `undefined` until collapse). -/
def TileIdInv (g : WFCGrid) : Prop :=
  ∀ p : ℕ × ℕ, (g p).collapsed = false → (g p).tileId = none

theorem updateGrid_same (g : WFCGrid) (p : ℕ × ℕ) (c : WFCCell) :
    updateGrid g p c p = c := by
  simp [updateGrid]

theorem updateGrid_other (g : WFCGrid) (p q : ℕ × ℕ) (c : WFCCell) (h : q ≠ p) :
    updateGrid g p c q = g q := by
  simp [updateGrid, h]

theorem filterPossibilities_subset (poss : List ℕ) (nt : Option ℕ) (d : Direction) :
    filterPossibilities poss nt d ⊆ poss := by
  cases nt with
  | none => exact fun a ha => ha
  | some nid =>
    cases hf : findTile nid with
    | none =>
      simp only [filterPossibilities, hf]
      exact fun a ha => ha
    | some ntile =>
      simp only [filterPossibilities, hf]
      exact fun a ha => (List.mem_filter.mp ha).1

theorem filterPossibilities_length_eq (poss : List ℕ) (nt : Option ℕ) (d : Direction)
    (h : (filterPossibilities poss nt d).length = poss.length) :
    filterPossibilities poss nt d = poss := by
  cases nt with
  | none => rfl
  | some nid =>
    cases hf : findTile nid with
    | none => simp only [filterPossibilities, hf]
    | some ntile =>
      simp only [filterPossibilities, hf] at h ⊢
      exact List.Sublist.eq_of_length (List.filter_sublist _) h

theorem filterPossibilities_mem (poss : List ℕ) (nid : ℕ) (ntile : Tile)
    (hnt : findTile nid = some ntile) (d : Direction) (tid : ℕ)
    (htid : tid ∈ filterPossibilities poss (some nid) d) :
    ∃ tile, findTile tid = some tile ∧ 3/10 < matrix tile.type ntile.type := by
  simp only [filterPossibilities, hnt] at htid
  rw [List.mem_filter] at htid
  rcases htid with ⟨-, hpred⟩
  cases hf : findTile tid with
  | none => rw [hf] at hpred; exact absurd hpred (by simp)
  | some tile =>
    rw [hf] at hpred
    rw [decide_eq_true_eq] at hpred
    exact ⟨tile, rfl, hpred⟩

theorem weightedCopies_pos (tid : ℕ) : 0 < weightedCopies tid := by
  unfold weightedCopies
  cases hf : findTile tid with
  | none => with_unfolding_all decide
  | some t =>
    have ht : t ∈ tiles := List.mem_of_find?_eq_some hf
    fin_cases ht <;> with_unfolding_all decide

theorem weightedPossibilities_mem (poss : List ℕ) (a : ℕ)
    (ha : a ∈ weightedPossibilities poss) : a ∈ poss := by
  unfold weightedPossibilities at ha
  rw [List.mem_flatMap] at ha
  obtain ⟨tid, htid, hrep⟩ := ha
  rw [List.eq_of_mem_replicate hrep]
  exact htid

theorem weightedPossibilities_ne_nil (poss : List ℕ) (h : poss ≠ []) :
    weightedPossibilities poss ≠ [] := by
  obtain ⟨p, hp⟩ := List.exists_mem_of_ne_nil poss h
  apply List.ne_nil_of_mem
  show p ∈ weightedPossibilities poss
  unfold weightedPossibilities
  rw [List.mem_flatMap]
  exact ⟨p, hp, List.mem_replicate.mpr ⟨(weightedCopies_pos p).ne', rfl⟩⟩

theorem floor_mul_lt (r : ℚ) (n : ℕ) (hr0 : 0 ≤ r) (hr1 : r < 1) (hn : 0 < n) :
    (⌊r * (n : ℚ)⌋).toNat < n := by
  have h1 : r * (n : ℚ) < (n : ℚ) := by
    have : (0 : ℚ) < (n : ℚ) := by exact_mod_cast hn
    nlinarith
  have h2 : ⌊r * (n : ℚ)⌋ < (n : ℤ) := Int.floor_lt.mpr (by exact_mod_cast h1)
  omega

/-- Cells other than `(x, y)` are untouched by `collapseCell`. -/
theorem collapseCell_other (g : WFCGrid) (x y : ℕ) (r : ℚ) (q : ℕ × ℕ)
    (h : q ≠ (x, y)) : collapseCell g x y r q = g q := by
  unfold collapseCell
  by_cases hc : (g (x, y)).collapsed = true ∨ (g (x, y)).possibilities = []
  · rw [if_pos hc]
  · rw [if_neg hc]
    cases (weightedPossibilities (g (x, y)).possibilities).get?
        (⌊r * ((weightedPossibilities (g (x, y)).possibilities).length : ℚ)⌋).toNat with
    | none => exact updateGrid_other _ _ _ _ h
    | some chosen => exact updateGrid_other _ _ _ _ h

/-- Complete case analysis of one `collapseCell` call under an in-range
random draw: either the guard fires and nothing changes, or one tile from
the current possibility set is chosen and installed. -/
theorem collapseCell_cases (g : WFCGrid) (x y : ℕ) (r : ℚ)
    (hr0 : 0 ≤ r) (hr1 : r < 1) :
    (collapseCell g x y r = g ∧
      ((g (x, y)).collapsed = true ∨ (g (x, y)).possibilities = [])) ∨
    (∃ chosen, chosen ∈ (g (x, y)).possibilities ∧ (g (x, y)).collapsed = false ∧
      collapseCell g x y r = updateGrid g (x, y)
        { collapsed := true, possibilities := [chosen], entropy := 0,
          tileId := some chosen }) := by
  by_cases hc : (g (x, y)).collapsed = true ∨ (g (x, y)).possibilities = []
  · left
    constructor
    · unfold collapseCell; rw [if_pos hc]
    · exact hc
  · right
    push_neg at hc
    have hposs : (g (x, y)).possibilities ≠ [] := hc.2
    have hwp := weightedPossibilities_ne_nil _ hposs
    have hlen : 0 < (weightedPossibilities (g (x, y)).possibilities).length :=
      List.length_pos.mpr hwp
    have hidx := floor_mul_lt r _ hr0 hr1 hlen
    obtain ⟨chosen, hget⟩ : ∃ a, (weightedPossibilities (g (x, y)).possibilities).get?
        (⌊r * ((weightedPossibilities (g (x, y)).possibilities).length : ℚ)⌋).toNat
          = some a := ⟨_, List.get?_eq_get hidx⟩
    refine ⟨chosen, ?_, ?_, ?_⟩
    · exact weightedPossibilities_mem _ _ (List.get?_mem hget)
    · have := hc.1
      simp only [Bool.not_eq_true] at this
      exact this
    · unfold collapseCell
      rw [if_neg (not_or.mpr ⟨hc.1, hc.2⟩)]
      simp only [hget]

-- Cells named by distinct in-bounds neighbour records are distinct.
theorem entryCell_inj (W H : ℕ) (e1 e2 : (ℤ × ℤ) × Direction)
    (h1 : entryInBounds W H e1) (h2 : entryInBounds W H e2) (hne : e1.1 ≠ e2.1) :
    entryCell e1 ≠ entryCell e2 := by
  obtain ⟨a1, b1, c1, d1⟩ := h1
  obtain ⟨a2, b2, c2, d2⟩ := h2
  intro h
  apply hne
  rw [Prod.ext_iff] at h ⊢
  simp only [entryCell] at h
  omega

/-- The neighbour pass never changes a cell's `collapsed` flag or `tileId`,
only ever shrinks possibility sets, and leaves collapsed cells entirely
alone. -/
theorem visitNeighbors_fields (src : ℕ × ℕ) (W H : ℕ) :
    ∀ (nbs : List ((ℤ × ℤ) × Direction)) (g : WFCGrid) (q : List (ℕ × ℕ)) (p : ℕ × ℕ),
      ((visitNeighbors src W H nbs g q).1 p).collapsed = (g p).collapsed ∧
      ((visitNeighbors src W H nbs g q).1 p).tileId = (g p).tileId ∧
      ((visitNeighbors src W H nbs g q).1 p).possibilities ⊆ (g p).possibilities ∧
      ((g p).collapsed = true → (visitNeighbors src W H nbs g q).1 p = g p) := by
  intro nbs
  induction nbs with
  | nil =>
    intro g q p
    exact ⟨rfl, rfl, fun a ha => ha, fun _ => rfl⟩
  | cons e0 rest ih =>
    rcases e0 with ⟨⟨nx, ny⟩, d⟩
    intro g q p
    simp only [visitNeighbors]
    split_ifs with h1 h2 h3
    · exact ih g q p
    · by_cases hp : p = (nx.toNat, ny.toNat)
      · subst hp
        have hup := updateGrid_same g (nx.toNat, ny.toNat)
          { g (nx.toNat, ny.toNat) with
            possibilities := filterPossibilities (g (nx.toNat, ny.toNat)).possibilities
              ((g src).tileId) d
            entropy := (filterPossibilities (g (nx.toNat, ny.toNat)).possibilities
              ((g src).tileId) d).length }
        have hih := ih (updateGrid g (nx.toNat, ny.toNat)
          { g (nx.toNat, ny.toNat) with
            possibilities := filterPossibilities (g (nx.toNat, ny.toNat)).possibilities
              ((g src).tileId) d
            entropy := (filterPossibilities (g (nx.toNat, ny.toNat)).possibilities
              ((g src).tileId) d).length })
          (q ++ [(nx.toNat, ny.toNat)]) (nx.toNat, ny.toNat)
        rw [hup] at hih
        refine ⟨hih.1, hih.2.1, fun a ha => ?_, fun hcol => ?_⟩
        · exact filterPossibilities_subset (g (nx.toNat, ny.toNat)).possibilities
            ((g src).tileId) d (hih.2.2.1 ha)
        · rw [hcol] at h2; exact absurd rfl h2
      · have hup := updateGrid_other g (nx.toNat, ny.toNat) p
          { g (nx.toNat, ny.toNat) with
            possibilities := filterPossibilities (g (nx.toNat, ny.toNat)).possibilities
              ((g src).tileId) d
            entropy := (filterPossibilities (g (nx.toNat, ny.toNat)).possibilities
              ((g src).tileId) d).length } hp
        have hih := ih (updateGrid g (nx.toNat, ny.toNat)
          { g (nx.toNat, ny.toNat) with
            possibilities := filterPossibilities (g (nx.toNat, ny.toNat)).possibilities
              ((g src).tileId) d
            entropy := (filterPossibilities (g (nx.toNat, ny.toNat)).possibilities
              ((g src).tileId) d).length })
          (q ++ [(nx.toNat, ny.toNat)]) p
        rw [hup] at hih
        exact hih
    · exact ih g q p
    · exact ih g q p

/-- When the dequeued cell has no `tileId`, the neighbour pass is a no-op:
`filterPossibilities` returns every list unchanged, so nothing is stored and
nothing is enqueued. -/
theorem visitNeighbors_noop (src : ℕ × ℕ) (W H : ℕ) :
    ∀ (nbs : List ((ℤ × ℤ) × Direction)) (g : WFCGrid) (q : List (ℕ × ℕ)),
      (g src).tileId = none → visitNeighbors src W H nbs g q = (g, q) := by
  intro nbs
  induction nbs with
  | nil => intro g q _; rfl
  | cons e0 rest ih =>
    rcases e0 with ⟨⟨nx, ny⟩, d⟩
    intro g q h
    simp only [visitNeighbors]
    split_ifs with h1 h2 h3
    · exact ih g q h
    · rw [h] at h3
      simp only [filterPossibilities] at h3
      exact absurd rfl h3
    · exact ih g q h
    · exact ih g q h

/-- Everything appended to the queue by the neighbour pass is an in-bounds,
uncollapsed neighbour cell. -/
theorem visitNeighbors_queue (src : ℕ × ℕ) (W H : ℕ) :
    ∀ (nbs : List ((ℤ × ℤ) × Direction)) (g : WFCGrid) (q : List (ℕ × ℕ)),
      ∀ e ∈ (visitNeighbors src W H nbs g q).2,
        e ∈ q ∨ ∃ en ∈ nbs, entryInBounds W H en ∧ e = entryCell en ∧
          (g (entryCell en)).collapsed = false := by
  intro nbs
  induction nbs with
  | nil => intro g q e he; exact Or.inl he
  | cons e0 rest ih =>
    rcases e0 with ⟨⟨nx, ny⟩, d⟩
    intro g q e he
    simp only [visitNeighbors] at he
    split_ifs at he with h1 h2 h3
    · rcases ih g q e he with h | ⟨en, hen, hrest⟩
      · exact Or.inl h
      · exact Or.inr ⟨en, List.mem_cons_of_mem _ hen, hrest⟩
    · rcases ih _ _ e he with h | ⟨en, hen, hb, hcell, hcol⟩
      · rcases List.mem_append.mp h with h | h
        · exact Or.inl h
        · refine Or.inr ⟨((nx, ny), d), List.mem_cons_self _ _, h1, ?_, ?_⟩
          · rw [List.mem_singleton.mp h]; rfl
          · simpa using h2
      · refine Or.inr ⟨en, List.mem_cons_of_mem _ hen, hb, hcell, ?_⟩
        by_cases hpe : entryCell en = (nx.toNat, ny.toNat)
        · rw [hpe] at hcol ⊢
          rw [updateGrid_same] at hcol
          simpa using hcol
        · rw [updateGrid_other _ _ _ _ hpe] at hcol
          exact hcol
    · rcases ih g q e he with h | ⟨en, hen, hrest⟩
      · exact Or.inl h
      · exact Or.inr ⟨en, List.mem_cons_of_mem _ hen, hrest⟩
    · rcases ih g q e he with h | ⟨en, hen, hrest⟩
      · exact Or.inl h
      · exact Or.inr ⟨en, List.mem_cons_of_mem _ hen, hrest⟩

/-- Cells not named by any in-bounds record of the list are untouched. -/
theorem visitNeighbors_untouched (src : ℕ × ℕ) (W H : ℕ) :
    ∀ (nbs : List ((ℤ × ℤ) × Direction)) (g : WFCGrid) (q : List (ℕ × ℕ)) (p : ℕ × ℕ),
      (∀ en ∈ nbs, entryInBounds W H en → entryCell en ≠ p) →
      (visitNeighbors src W H nbs g q).1 p = g p := by
  intro nbs
  induction nbs with
  | nil => intro g q p _; rfl
  | cons e0 rest ih =>
    rcases e0 with ⟨⟨nx, ny⟩, d⟩
    intro g q p hne
    simp only [visitNeighbors]
    split_ifs with h1 h2 h3
    · exact ih g q p fun en hen => hne en (List.mem_cons_of_mem _ hen)
    · rw [ih _ _ p fun en hen => hne en (List.mem_cons_of_mem _ hen)]
      exact updateGrid_other _ _ _ _ (fun hp =>
        hne ((nx, ny), d) (List.mem_cons_self _ _) h1 (hp ▸ rfl))
    · exact ih g q p fun en hen => hne en (List.mem_cons_of_mem _ hen)
    · exact ih g q p fun en hen => hne en (List.mem_cons_of_mem _ hen)

/-- The neighbour pass preserves the entropy invariant: whenever a filtered
list is stored, the recomputed entropy is stored with it. -/
theorem visitNeighbors_entropy (src : ℕ × ℕ) (W H : ℕ) :
    ∀ (nbs : List ((ℤ × ℤ) × Direction)) (g : WFCGrid) (q : List (ℕ × ℕ)),
      EntropyInv g → EntropyInv (visitNeighbors src W H nbs g q).1 := by
  intro nbs
  induction nbs with
  | nil => intro g q h; exact h
  | cons e0 rest ih =>
    rcases e0 with ⟨⟨nx, ny⟩, d⟩
    intro g q h
    simp only [visitNeighbors]
    split_ifs with h1 h2 h3
    · exact ih g q h
    · apply ih
      intro p
      by_cases hp : p = (nx.toNat, ny.toNat)
      · subst hp
        rw [updateGrid_same]
        constructor
        · intro _; rfl
        · intro hcol
          simp only at hcol
          rw [hcol] at h2
          exact absurd rfl h2
      · rw [updateGrid_other _ _ _ _ hp]
        exact h p
    · exact ih g q h
    · exact ih g q h

/-- Collapsing never creates an uncollapsed cell with a `tileId`. -/
theorem TileIdInv_collapseCell (g : WFCGrid) (x y : ℕ) (r : ℚ) (h : TileIdInv g) :
    TileIdInv (collapseCell g x y r) := by
  intro p hp
  by_cases hpe : p = (x, y)
  · subst hpe
    simp only [collapseCell] at hp ⊢
    by_cases hc : (g (x, y)).collapsed = true ∨ (g (x, y)).possibilities = []
    · rw [if_pos hc] at hp ⊢
      exact h (x, y) hp
    · rw [if_neg hc] at hp ⊢
      rcases hget : (weightedPossibilities (g (x, y)).possibilities).get?
          (⌊r * ((weightedPossibilities (g (x, y)).possibilities).length : ℚ)⌋).toNat
        with _ | chosen
      · simp only [hget, updateGrid_same]
      · simp only [hget, updateGrid_same] at hp
        simp at hp
  · rw [collapseCell_other g x y r p hpe] at hp ⊢
    exact h p hp

/-- Preservation of the entropy invariant by one collapse (in-range draw). -/
theorem EntropyInv_collapseCell (g : WFCGrid) (x y : ℕ) (r : ℚ)
    (h : EntropyInv g) (hr0 : 0 ≤ r) (hr1 : r < 1) :
    EntropyInv (collapseCell g x y r) := by
  rcases collapseCell_cases g x y r hr0 hr1 with ⟨heq, -⟩ | ⟨chosen, -, -, heq⟩
  · rw [heq]; exact h
  · rw [heq]
    intro p
    by_cases hp : p = (x, y)
    · subst hp
      rw [updateGrid_same]
      constructor
      · intro hh; simp at hh
      · intro _; exact ⟨rfl, rfl⟩
    · rw [updateGrid_other _ _ _ _ hp]
      exact h p

theorem EntropyInv_init (W H : ℕ) : EntropyInv (initializeWFCGrid W H) := by
  intro p
  constructor
  · intro _; rfl
  · intro hh; simp [initializeWFCGrid] at hh

/-- A queue of cells without `tileId` makes the whole propagation loop a
no-op: this is the reason multi-hop propagation never changes anything. -/
theorem propagateLoop_noop (W H : ℕ) :
    ∀ (fuel : ℕ) (g : WFCGrid) (queue visited : List (ℕ × ℕ)),
      (∀ p ∈ queue, (g p).tileId = none) →
      propagateLoop W H fuel g queue visited = g := by
  intro fuel
  induction fuel with
  | zero => intro g queue visited _; rfl
  | succ n ih =>
    intro g queue visited hq
    cases queue with
    | nil => rfl
    | cons p rest =>
      simp only [propagateLoop]
      split_ifs with hv
      · exact ih g rest visited fun e he => hq e (List.mem_cons_of_mem _ he)
      · rw [visitNeighbors_noop p W H (neighborList p.1 p.2) g rest
          (hq p (List.mem_cons_self _ _))]
        exact ih g rest _ fun e he => hq e (List.mem_cons_of_mem _ he)

/-- The propagation loop never changes `collapsed` or `tileId` and only
shrinks possibility sets. -/
theorem propagateLoop_fields (W H : ℕ) :
    ∀ (fuel : ℕ) (g : WFCGrid) (queue visited : List (ℕ × ℕ)) (p : ℕ × ℕ),
      ((propagateLoop W H fuel g queue visited) p).collapsed = (g p).collapsed ∧
      ((propagateLoop W H fuel g queue visited) p).tileId = (g p).tileId ∧
      ((propagateLoop W H fuel g queue visited) p).possibilities ⊆ (g p).possibilities := by
  intro fuel
  induction fuel with
  | zero => intro g queue visited p; exact ⟨rfl, rfl, fun a ha => ha⟩
  | succ n ih =>
    intro g queue visited p
    cases queue with
    | nil => exact ⟨rfl, rfl, fun a ha => ha⟩
    | cons c rest =>
      simp only [propagateLoop]
      split_ifs with hv
      · exact ih g rest visited p
      · have hvf := visitNeighbors_fields c W H (neighborList c.1 c.2) g rest p
        have hih := ih (visitNeighbors c W H (neighborList c.1 c.2) g rest).1
          (visitNeighbors c W H (neighborList c.1 c.2) g rest).2 (c :: visited) p
        exact ⟨hih.1.trans hvf.1, hih.2.1.trans hvf.2.1,
          fun a ha => hvf.2.2.1 (hih.2.2 ha)⟩

theorem propagateLoop_entropy (W H : ℕ) :
    ∀ (fuel : ℕ) (g : WFCGrid) (queue visited : List (ℕ × ℕ)),
      EntropyInv g → EntropyInv (propagateLoop W H fuel g queue visited) := by
  intro fuel
  induction fuel with
  | zero => intro g queue visited h; exact h
  | succ n ih =>
    intro g queue visited h
    cases queue with
    | nil => exact h
    | cons c rest =>
      simp only [propagateLoop]
      split_ifs with hv
      · exact ih g rest visited h
      · exact ih _ _ _ (visitNeighbors_entropy c W H (neighborList c.1 c.2) g rest h)

/-- Under the tile-id invariant, one collapse-and-propagate call reduces to
the single neighbour pass around the collapsed cell: all enqueued cells are
uncollapsed, hence have no `tileId`, and processing them filters nothing. -/
theorem collapseAndPropagate_eq (g : WFCGrid) (x y : ℕ) (r : ℚ) (W H : ℕ)
    (hti : TileIdInv (collapseCell g x y r)) :
    collapseAndPropagate g x y r W H =
      (visitNeighbors (x, y) W H (neighborList x y) (collapseCell g x y r) []).1 := by
  unfold collapseAndPropagate propagateConstraints
  have hpos : 0 < (W * H + 1) * (4 * W * H + 2) := by positivity
  rw [show (W * H + 1) * (4 * W * H + 2) =
      ((W * H + 1) * (4 * W * H + 2) - 1) + 1 by omega]
  simp only [propagateLoop]
  rw [if_neg (by simp)]
  apply propagateLoop_noop
  intro e he
  rcases visitNeighbors_queue (x, y) W H (neighborList x y) (collapseCell g x y r) [] e he
    with h | ⟨en, -, -, hcell, hcol⟩
  · exact absurd h (List.not_mem_nil e)
  · have hf := (visitNeighbors_fields (x, y) W H (neighborList x y)
      (collapseCell g x y r) [] e).2.1
    rw [hf, hcell]
    exact hti _ hcol

theorem neighborList_pairwise (x y : ℕ) :
    List.Pairwise (fun e1 e2 : (ℤ × ℤ) × Direction => e1.1 ≠ e2.1) (neighborList x y) := by
  simp only [neighborList]
  refine List.Pairwise.cons ?_ (List.Pairwise.cons ?_ (List.Pairwise.cons ?_
    (List.pairwise_singleton _ _))) <;>
    · intro e he
      fin_cases he <;>
        (intro h; simp only [Prod.mk.injEq] at h; omega)

theorem neighborList_ne_src (W H x y : ℕ) :
    ∀ en ∈ neighborList x y, entryInBounds W H en → entryCell en ≠ (x, y) := by
  intro en hen hb
  simp only [neighborList, List.mem_cons, List.mem_singleton, List.not_mem_nil,
    or_false] at hen
  rcases hen with rfl | rfl | rfl | rfl <;>
    · simp [entryInBounds] at hb
      intro heq
      simp [entryCell, Prod.mk.injEq] at heq
      all_goals omega

theorem neighborList_adjacent (W H x y : ℕ) :
    ∀ en ∈ neighborList x y, entryInBounds W H en →
      AdjacentCells (x, y) (entryCell en) ∧
      (entryCell en).1 < W ∧ (entryCell en).2 < H := by
  intro en hen hb
  simp only [neighborList, List.mem_cons, List.mem_singleton, List.not_mem_nil,
    or_false] at hen
  rcases hen with rfl | rfl | rfl | rfl <;>
    · simp [entryInBounds] at hb
      simp [AdjacentCells, entryCell]
      all_goals omega

theorem adjacent_mem_neighborList (W H x y : ℕ) (q : ℕ × ℕ)
    (hadj : AdjacentCells (x, y) q) (hq1 : q.1 < W) (hq2 : q.2 < H) :
    ∃ en ∈ neighborList x y, entryInBounds W H en ∧ entryCell en = q := by
  obtain ⟨qa, qb⟩ := q
  simp only [AdjacentCells] at hadj
  dsimp only at hadj hq1 hq2
  rcases hadj with ⟨hx, hy | hy⟩ | ⟨hy, hx | hx⟩
  · -- y = qb + 1: north neighbour
    refine ⟨((x, (y : ℤ) - 1), .north), by simp [neighborList], ?_, ?_⟩
    · refine ⟨?_, ?_, ?_, ?_⟩ <;> (simp only [entryInBounds]; omega)
    · simp [entryCell, Prod.mk.injEq]
      all_goals omega
  · -- qb = y + 1: south neighbour
    refine ⟨((x, (y : ℤ) + 1), .south), by simp [neighborList], ?_, ?_⟩
    · refine ⟨?_, ?_, ?_, ?_⟩ <;> (simp only [entryInBounds]; omega)
    · simp [entryCell, Prod.mk.injEq]
      all_goals omega
  · -- x = qa + 1: west neighbour
    refine ⟨(((x : ℤ) - 1, y), .west), by simp [neighborList], ?_, ?_⟩
    · refine ⟨?_, ?_, ?_, ?_⟩ <;> (simp only [entryInBounds]; omega)
    · simp [entryCell, Prod.mk.injEq]
      all_goals omega
  · -- qa = x + 1: east neighbour
    refine ⟨(((x : ℤ) + 1, y), .east), by simp [neighborList], ?_, ?_⟩
    · refine ⟨?_, ?_, ?_, ?_⟩ <;> (simp only [entryInBounds]; omega)
    · simp [entryCell, Prod.mk.injEq]
      all_goals omega

/-- After the neighbour pass around a cell fixed to tile `t`, every
possibility surviving at an in-bounds, previously uncollapsed neighbour is
adjacency-compatible with `t` (score strictly above 0.3): either its list
was filtered and stored, or the filter removed nothing, which means every
entry already passed the predicate. -/
theorem visitNeighbors_filtered (W H : ℕ) (src : ℕ × ℕ) (t : ℕ) (ntile : Tile)
    (hnt : findTile t = some ntile) :
    ∀ (nbs : List ((ℤ × ℤ) × Direction)) (g : WFCGrid) (q : List (ℕ × ℕ)),
      (g src).tileId = some t →
      (∀ en ∈ nbs, entryInBounds W H en → entryCell en ≠ src) →
      List.Pairwise (fun e1 e2 : (ℤ × ℤ) × Direction => e1.1 ≠ e2.1) nbs →
      ∀ en ∈ nbs, entryInBounds W H en → (g (entryCell en)).collapsed = false →
        ∀ tid ∈ ((visitNeighbors src W H nbs g q).1 (entryCell en)).possibilities,
          ∃ tile, findTile tid = some tile ∧ 3/10 < matrix tile.type ntile.type := by
  intro nbs
  induction nbs with
  | nil =>
    intro g q _ _ _ en hen
    exact absurd hen (List.not_mem_nil en)
  | cons e0 rest ih =>
    intro g q hsrc hnsrc hpw en hen hinb hunc tid htid
    have hpw0 := (List.pairwise_cons.mp hpw).1
    have hpwr := (List.pairwise_cons.mp hpw).2
    rcases List.mem_cons.mp hen with rfl | hmem
    · -- the head entry itself
      obtain ⟨⟨nx, ny⟩, d⟩ := en
      have hb : 0 ≤ nx ∧ nx < (W : ℤ) ∧ 0 ≤ ny ∧ ny < (H : ℤ) := hinb
      have hcolF : (g (nx.toNat, ny.toNat)).collapsed = false := hunc
      have huntouched : ∀ (g2 : WFCGrid) (q2 : List (ℕ × ℕ)),
          (visitNeighbors src W H rest g2 q2).1 (nx.toNat, ny.toNat) =
            g2 (nx.toNat, ny.toNat) := by
        intro g2 q2
        apply visitNeighbors_untouched
        intro en2 hen2 hinb2
        exact entryCell_inj W H en2 ((nx, ny), d) hinb2 hb (hpw0 en2 hen2).symm
      simp only [visitNeighbors] at htid
      rw [if_pos hb, if_neg (by simp [hcolF])] at htid
      by_cases hlen : (filterPossibilities (g (nx.toNat, ny.toNat)).possibilities
          ((g src).tileId) d).length ≠ (g (nx.toNat, ny.toNat)).possibilities.length
      · rw [if_pos hlen] at htid
        rw [show entryCell ((nx, ny), d) = (nx.toNat, ny.toNat) from rfl,
          huntouched _ _, updateGrid_same] at htid
        simp only at htid
        rw [hsrc] at htid
        exact filterPossibilities_mem _ t ntile hnt d tid htid
      · rw [if_neg hlen] at htid
        rw [show entryCell ((nx, ny), d) = (nx.toNat, ny.toNat) from rfl,
          huntouched _ _] at htid
        push_neg at hlen
        have heq := filterPossibilities_length_eq
          (g (nx.toNat, ny.toNat)).possibilities ((g src).tileId) d hlen
        rw [← heq, hsrc] at htid
        exact filterPossibilities_mem _ t ntile hnt d tid htid
    · -- an entry of the tail
      obtain ⟨⟨nx, ny⟩, d⟩ := e0
      simp only [visitNeighbors] at htid
      split_ifs at htid with h1 h2 h3
      · exact ih g q hsrc (fun e he hb => hnsrc e (List.mem_cons_of_mem _ he) hb)
          hpwr en hmem hinb hunc tid htid
      · have hne_src : (nx.toNat, ny.toNat) ≠ src :=
          hnsrc ((nx, ny), d) (List.mem_cons_self _ _) h1
        have hsrc2 : ((updateGrid g (nx.toNat, ny.toNat)
            { g (nx.toNat, ny.toNat) with
              possibilities := filterPossibilities (g (nx.toNat, ny.toNat)).possibilities
                ((g src).tileId) d
              entropy := (filterPossibilities (g (nx.toNat, ny.toNat)).possibilities
                ((g src).tileId) d).length }) src).tileId = some t := by
          rw [updateGrid_other _ _ _ _ (Ne.symm hne_src)]
          exact hsrc
        have hunc2 : ((updateGrid g (nx.toNat, ny.toNat)
            { g (nx.toNat, ny.toNat) with
              possibilities := filterPossibilities (g (nx.toNat, ny.toNat)).possibilities
                ((g src).tileId) d
              entropy := (filterPossibilities (g (nx.toNat, ny.toNat)).possibilities
                ((g src).tileId) d).length }) (entryCell en)).collapsed = false := by
          by_cases hpe : entryCell en = (nx.toNat, ny.toNat)
          · rw [hpe, updateGrid_same]
            simp only
            rw [← hpe]
            exact hunc
          · rw [updateGrid_other _ _ _ _ hpe]
            exact hunc
        exact ih _ _ hsrc2 (fun e he hb => hnsrc e (List.mem_cons_of_mem _ he) hb)
          hpwr en hmem hinb hunc2 tid htid
      · exact ih g q hsrc (fun e he hb => hnsrc e (List.mem_cons_of_mem _ he) hb)
          hpwr en hmem hinb hunc tid htid
      · exact ih g q hsrc (fun e he hb => hnsrc e (List.mem_cons_of_mem _ he) hb)
          hpwr en hmem hinb hunc tid htid

theorem matrix_symm : ∀ a b : TileType, matrix a b = matrix b a := by
  intro a b
  cases a <;> cases b <;> rfl

theorem scoreOfIds_symm (a b : ℕ) : scoreOfIds a b = scoreOfIds b a := by
  unfold scoreOfIds
  cases ha : findTile a <;> cases hb : findTile b <;> simp only []
  exact matrix_symm _ _

theorem AdjacentCells_symm (p q : ℕ × ℕ) (h : AdjacentCells p q) : AdjacentCells q p := by
  simp only [AdjacentCells] at h ⊢
  omega

/-- The inductive invariant of the solver: uncollapsed cells have no tile id;
a collapsed cell's possibility list is exactly its resolved tile; every
possibility refers to a real tile of the catalog; and every possibility of a
cell is adjacency-compatible (score above 0.3) with the resolved tile of
each of its collapsed in-bounds orthogonal neighbours. -/
def WFCInv (W H : ℕ) (g : WFCGrid) : Prop :=
  TileIdInv g ∧
  (∀ p : ℕ × ℕ, (g p).collapsed = true → (g p).possibilities = (g p).tileId.toList) ∧
  (∀ p : ℕ × ℕ, ∀ tid ∈ (g p).possibilities, (findTile tid).isSome = true) ∧
  (∀ p q : ℕ × ℕ, p.1 < W → p.2 < H → q.1 < W → q.2 < H → AdjacentCells p q →
    (g q).collapsed = true → ∀ t, (g q).tileId = some t →
    ∀ tid ∈ (g p).possibilities, 3/10 < scoreOfIds tid t)

theorem WFCInv_init (W H : ℕ) : WFCInv W H (initializeWFCGrid W H) := by
  refine ⟨?_, ?_, ?_, ?_⟩
  · intro p _; rfl
  · intro p hp; simp [initializeWFCGrid] at hp
  · intro p tid htid
    have h : tid ∈ allTileIds := htid
    simp [allTileIds, tiles] at h
    rcases h with rfl | rfl | rfl | rfl | rfl | rfl | rfl <;> rfl
  · intro p q _ _ _ _ _ hcol
    simp [initializeWFCGrid] at hcol

/-- An arbitrary neighbour pass preserves the whole invariant (it only ever
shrinks possibility lists and touches nothing else). -/
theorem WFCInv_visitNeighbors (W H : ℕ) (src : ℕ × ℕ)
    (nbs : List ((ℤ × ℤ) × Direction)) (g : WFCGrid) (q : List (ℕ × ℕ))
    (hinv : WFCInv W H g) : WFCInv W H (visitNeighbors src W H nbs g q).1 := by
  obtain ⟨ha, hb, hc, hd⟩ := hinv
  have hf := visitNeighbors_fields src W H nbs g q
  refine ⟨?_, ?_, ?_, ?_⟩
  · intro p hp
    rw [(hf p).2.1]
    apply ha p
    rw [← (hf p).1]
    exact hp
  · intro p hp
    have hcol : (g p).collapsed = true := by rw [← (hf p).1]; exact hp
    rw [(hf p).2.2.2 hcol]
    exact hb p hcol
  · intro p tid htid
    exact hc p tid ((hf p).2.2.1 htid)
  · intro p q2 hp1 hp2 hq1 hq2 hadj hcol t ht tid htid
    have hcolg : (g q2).collapsed = true := by rw [← (hf q2).1]; exact hcol
    have htg : (g q2).tileId = some t := by rw [← (hf q2).2.1]; exact ht
    exact hd p q2 hp1 hp2 hq1 hq2 hadj hcolg t htg tid ((hf p).2.2.1 htid)

/-- One solver step preserves the invariant. -/
theorem WFCInv_step (W H x y : ℕ) (r : ℚ) (g : WFCGrid)
    (hx : x < W) (hy : y < H) (hr0 : 0 ≤ r) (hr1 : r < 1)
    (hinv : WFCInv W H g) : WFCInv W H (collapseAndPropagate g x y r W H) := by
  have hti1 : TileIdInv (collapseCell g x y r) := TileIdInv_collapseCell g x y r hinv.1
  rw [collapseAndPropagate_eq g x y r W H hti1]
  rcases collapseCell_cases g x y r hr0 hr1 with ⟨heq, -⟩ | ⟨chosen, hmem, hunc, heq⟩
  · rw [heq]
    exact WFCInv_visitNeighbors W H (x, y) (neighborList x y) g [] hinv
  · obtain ⟨ha, hb, hc, hd⟩ := hinv
    obtain ⟨ntile, hnt⟩ : ∃ u, findTile chosen = some u :=
      Option.isSome_iff_exists.mp (hc (x, y) chosen hmem)
    rw [heq]
    rw [heq] at hti1
    have hg1self : (updateGrid g (x, y)
        { collapsed := true, possibilities := [chosen], entropy := 0,
          tileId := some chosen } (x, y)) =
        { collapsed := true, possibilities := [chosen], entropy := 0,
          tileId := some chosen } := updateGrid_same _ _ _
    have hg1other : ∀ p : ℕ × ℕ, p ≠ (x, y) → (updateGrid g (x, y)
        { collapsed := true, possibilities := [chosen], entropy := 0,
          tileId := some chosen } p) = g p := fun p hp => updateGrid_other _ _ _ _ hp
    set g1 : WFCGrid := updateGrid g (x, y)
      { collapsed := true, possibilities := [chosen], entropy := 0,
        tileId := some chosen } with hg1def
    have hf := visitNeighbors_fields (x, y) W H (neighborList x y) g1 []
    have hsrc1 : (g1 (x, y)).tileId = some chosen := by rw [hg1self]
    have hcol1 : (g1 (x, y)).collapsed = true := by rw [hg1self]
    refine ⟨?_, ?_, ?_, ?_⟩
    · -- tile-id invariant
      intro p hp
      rw [(hf p).2.1]
      apply hti1 p
      rw [← (hf p).1]
      exact hp
    · -- collapsed cells carry their single tile
      intro p hp
      have hcolg1 : (g1 p).collapsed = true := by rw [← (hf p).1]; exact hp
      rw [(hf p).2.2.2 hcolg1]
      by_cases hpe : p = (x, y)
      · subst hpe; rw [hg1self]; rfl
      · rw [hg1other p hpe]
        rw [hg1other p hpe] at hcolg1
        exact hb p hcolg1
    · -- every possibility is a real tile
      intro p tid htid
      have h1 : tid ∈ (g1 p).possibilities := (hf p).2.2.1 htid
      by_cases hpe : p = (x, y)
      · subst hpe
        rw [hg1self] at h1
        rw [List.mem_singleton.mp h1]
        exact hc (x, y) chosen hmem
      · rw [hg1other p hpe] at h1
        exact hc p tid h1
    · -- adjacency compatibility
      intro p q2 hp1 hp2 hq1 hq2 hadj hcol t ht tid htid
      have hcolg1 : (g1 q2).collapsed = true := by rw [← (hf q2).1]; exact hcol
      have htg1 : (g1 q2).tileId = some t := by rw [← (hf q2).2.1]; exact ht
      by_cases hqe : q2 = (x, y)
      · -- the newly collapsed cell is the constraining neighbour
        subst hqe
        have htc : t = chosen := by
          rw [hsrc1] at htg1
          exact (Option.some.inj htg1).symm
        rw [htc]
        by_cases hpe : p = (x, y)
        · subst hpe
          exfalso
          simp [AdjacentCells] at hadj
        · by_cases hpc : (g p).collapsed = true
          · -- an already-collapsed neighbour of the new cell
            have hcolg1p : (g1 p).collapsed = true := by rw [hg1other p hpe]; exact hpc
            have hgp : (visitNeighbors (x, y) W H (neighborList x y) g1 []).1 p = g1 p :=
              (hf p).2.2.2 hcolg1p
            rw [hgp, hg1other p hpe] at htid
            have hposs := hb p hpc
            rw [hposs] at htid
            rcases hto : (g p).tileId with _ | tp
            · rw [hto] at htid; exact absurd htid (by simp)
            · rw [hto] at htid
              have htid2 : tid = tp := by simpa using htid
              subst htid2
              have hsc := hd (x, y) p hx hy hp1 hp2 (AdjacentCells_symm p (x, y) hadj)
                hpc tid hto chosen hmem
              rw [scoreOfIds_symm]
              exact hsc
          · -- an uncollapsed neighbour: its list was filtered against `chosen`
            have hpcF : (g p).collapsed = false := by
              simp only [Bool.not_eq_true] at hpc; exact hpc
            obtain ⟨en, hen, hinb, hcell⟩ := adjacent_mem_neighborList W H x y p
              (AdjacentCells_symm p (x, y) hadj) hp1 hp2
            have huncg1 : (g1 (entryCell en)).collapsed = false := by
              rw [hcell, hg1other p hpe]; exact hpcF
            have hfil := visitNeighbors_filtered W H (x, y) chosen ntile hnt
              (neighborList x y) g1 [] hsrc1 (neighborList_ne_src W H x y)
              (neighborList_pairwise x y) en hen hinb huncg1 tid (by rw [hcell]; exact htid)
            obtain ⟨tile, htile, hsc⟩ := hfil
            show 3/10 < scoreOfIds tid chosen
            simp only [scoreOfIds, htile, hnt]
            exact hsc
      · -- the constraining neighbour was already collapsed before this step
        have hcolg : (g q2).collapsed = true := by rw [← hg1other q2 hqe]; exact hcolg1
        have htg : (g q2).tileId = some t := by rw [← hg1other q2 hqe]; exact htg1
        by_cases hpe : p = (x, y)
        · subst hpe
          have hgp : (visitNeighbors (x, y) W H (neighborList x y) g1 []).1 (x, y)
              = g1 (x, y) := (hf (x, y)).2.2.2 hcol1
          rw [hgp, hg1self] at htid
          rw [List.mem_singleton.mp htid]
          exact hd (x, y) q2 hx hy hq1 hq2 hadj hcolg t htg chosen hmem
        · have h1 : tid ∈ (g1 p).possibilities := (hf p).2.2.1 htid
          rw [hg1other p hpe] at h1
          exact hd p q2 hp1 hp2 hq1 hq2 hadj hcolg t htg tid h1

theorem WFCInv_reach (W H : ℕ) (g : WFCGrid) (h : SolverReach W H g) :
    WFCInv W H g := by
  induction h with
  | init => exact WFCInv_init W H
  | step g x y r hg hx hy hr0 hr1 ih => exact WFCInv_step W H x y r g hx hy hr0 hr1 ih

/-! ## C1, C2, C4, C10: the claim theorems about the solver -/

/-- C1: whenever a solver run reaches the Converged state (every in-bounds
cell collapsed), every pair of orthogonally adjacent cells carries resolved
tiles whose adjacency score `matrix[ownCategory][neighborCategory]` strictly
exceeds the 0.3 threshold.  `SolverReach` over-approximates every possible
`collapseWaveFunction` run (any collapse order, any in-range draws). -/
theorem wfc_converged_adjacent_compatible (W H : ℕ) (g : WFCGrid)
    (hreach : SolverReach W H g)
    (hall : ∀ x, x < W → ∀ y, y < H → (g (x, y)).collapsed = true)
    (p q : ℕ × ℕ) (hp1 : p.1 < W) (hp2 : p.2 < H) (hq1 : q.1 < W) (hq2 : q.2 < H)
    (hadj : AdjacentCells p q) (t u : ℕ)
    (ht : (g p).tileId = some t) (hu : (g q).tileId = some u) :
    3/10 < scoreOfIds t u := by
  have hinv := WFCInv_reach W H g hreach
  have hqc : (g q).collapsed = true := by
    have h := hall q.1 hq1 q.2 hq2
    rwa [Prod.mk.eta] at h
  have hpc : (g p).collapsed = true := by
    have h := hall p.1 hp1 p.2 hp2
    rwa [Prod.mk.eta] at h
  have hb := hinv.2.1 p hpc
  apply hinv.2.2.2 p q hp1 hp2 hq1 hq2 hadj hqc u hu t
  rw [hb, ht]
  simp

set_option maxRecDepth 40000 in
/-- C1 witness: a 2×1 grid collapsed in two steps (both draws 0) converges
with both cells resolved to tile 0 (residential); the theorem instantiated
there yields `0.3 < matrix[residential][residential] = 1`. -/
theorem wfc_converged_adjacent_compatible_witness : 3/10 < scoreOfIds 0 0 := by
  have h0 : SolverReach 2 1 (initializeWFCGrid 2 1) := SolverReach.init
  have h1 := SolverReach.step (initializeWFCGrid 2 1) 0 0 0 h0
    (by norm_num) (by norm_num) (by norm_num) (by norm_num)
  have h2 := SolverReach.step _ 1 0 0 h1
    (by norm_num) (by norm_num) (by norm_num) (by norm_num)
  exact wfc_converged_adjacent_compatible 2 1 _ h2
    (by with_unfolding_all decide)
    (0, 0) (1, 0) (by decide) (by decide) (by decide) (by decide)
    (by decide) 0 0
    (by with_unfolding_all decide)
    (by with_unfolding_all decide)

/-- C2: after initialization, after each collapse (with its in-range random
draw), and after each propagation step — at any fuel, queue and visited set,
hence after every intermediate neighbour pass — every uncollapsed cell's
`entropy` equals the size of its `possibilities` list and every collapsed
cell has `entropy = 0` with exactly one possibility. -/
theorem wfc_entropy_invariant (W H : ℕ) :
    EntropyInv (initializeWFCGrid W H) ∧
    (∀ (g : WFCGrid) (x y : ℕ) (r : ℚ),
      EntropyInv g → 0 ≤ r → r < 1 → EntropyInv (collapseCell g x y r)) ∧
    (∀ (g : WFCGrid) (fuel : ℕ) (queue visited : List (ℕ × ℕ)),
      EntropyInv g → EntropyInv (propagateLoop W H fuel g queue visited)) :=
  ⟨EntropyInv_init W H,
   fun g x y r h hr0 hr1 => EntropyInv_collapseCell g x y r h hr0 hr1,
   fun g fuel queue visited h => propagateLoop_entropy W H fuel g queue visited h⟩

/-- C2 witness: the invariant holds right after collapsing cell `(0, 0)` of
a freshly initialised 1×1 grid with draw 0. -/
theorem wfc_entropy_invariant_witness :
    EntropyInv (collapseCell (initializeWFCGrid 1 1) 0 0 0) :=
  (wfc_entropy_invariant 1 1).2.1 (initializeWFCGrid 1 1) 0 0 0
    (wfc_entropy_invariant 1 1).1 (by norm_num) (by norm_num)

theorem collapseCell_fields (g : WFCGrid) (x y : ℕ) (r : ℚ) (p : ℕ × ℕ) :
    ((collapseCell g x y r) p).possibilities ⊆ (g p).possibilities ∧
    ((g p).collapsed = true → ((collapseCell g x y r) p).collapsed = true) := by
  by_cases hpe : p = (x, y)
  · subst hpe
    simp only [collapseCell]
    by_cases hc : (g (x, y)).collapsed = true ∨ (g (x, y)).possibilities = []
    · rw [if_pos hc]; exact ⟨fun a ha => ha, fun h => h⟩
    · rw [if_neg hc]
      rcases hget : (weightedPossibilities (g (x, y)).possibilities).get?
          (⌊r * ((weightedPossibilities (g (x, y)).possibilities).length : ℚ)⌋).toNat
        with _ | chosen
      · simp only [hget, updateGrid_same]
        exact ⟨fun a ha => absurd ha (List.not_mem_nil a), fun _ => trivial⟩
      · simp only [hget, updateGrid_same]
        refine ⟨fun a ha => ?_, fun _ => trivial⟩
        rw [List.mem_singleton.mp ha]
        exact weightedPossibilities_mem _ _ (List.get?_mem hget)
  · rw [collapseCell_other g x y r p hpe]
    exact ⟨fun a ha => ha, fun h => h⟩

/-- C10: one collapse-and-propagate step never adds a tile id to any cell's
possibility list (the new list is always a subset of the old one), and a
collapsed cell never returns to the uncollapsed state.  This holds for every
grid, every target cell and every draw. -/
theorem wfc_step_monotone (g : WFCGrid) (x y : ℕ) (r : ℚ) (W H : ℕ) (p : ℕ × ℕ) :
    ((collapseAndPropagate g x y r W H) p).possibilities ⊆ (g p).possibilities ∧
    ((g p).collapsed = true → ((collapseAndPropagate g x y r W H) p).collapsed = true) := by
  simp only [collapseAndPropagate, propagateConstraints]
  have hpl := propagateLoop_fields W H ((W * H + 1) * (4 * W * H + 2))
    (collapseCell g x y r) [(x, y)] [] p
  have hcc := collapseCell_fields g x y r p
  constructor
  · intro a ha
    exact hcc.1 (hpl.2.2 ha)
  · intro hcol
    rw [hpl.1]
    exact hcc.2 hcol

/-- C10 witness: the step instantiated on a fresh 2×1 grid at cell `(0, 0)`
with draw 0, observed at cell `(1, 0)`. -/
theorem wfc_step_monotone_witness :
    ((collapseAndPropagate (initializeWFCGrid 2 1) 0 0 0 2 1) (1, 0)).possibilities ⊆
      (initializeWFCGrid 2 1 (1, 0)).possibilities ∧
    ((initializeWFCGrid 2 1 (1, 0)).collapsed = true →
      ((collapseAndPropagate (initializeWFCGrid 2 1) 0 0 0 2 1) (1, 0)).collapsed = true) :=
  wfc_step_monotone (initializeWFCGrid 2 1) 0 0 0 2 1 (1, 0)

/-- C4 (code bug): propagation is effectively single-hop.  Collapsing cell
`(0, 0)` of a fresh 3×1 grid (draw 0, so tile 0) shrinks its neighbour
`(1, 0)` to the six residential-compatible tiles and enqueues it, but
processing the enqueued cell filters with its `tileId`, which is
`undefined` for an uncollapsed cell, so `filterPossibilities` returns every
list unchanged: the cell `(2, 0)`, two orthogonal steps away, is left with
all 7 possibilities — no grid state can ever see a reduction at distance
two (`propagateLoop_noop` above proves the no-op in general).  The
specification instead requires the enqueued neighbour's own constraints to
be re-applied. -/
theorem wfc_propagation_is_single_hop :
    ((collapseAndPropagate (initializeWFCGrid 3 1) 0 0 0 3 1) (1, 0)).possibilities
        = [0, 1, 3, 4, 5, 6] ∧
    (collapseAndPropagate (initializeWFCGrid 3 1) 0 0 0 3 1) (2, 0) =
      initializeWFCGrid 3 1 (2, 0) := by
  constructor <;> with_unfolding_all decide

end CityGen
